import Mathlib

/-!
# Verification of the `dejavu` packed-array binary search tree cache

Shallow embedding of `src/cache.go` (package `dejavu`), together with the
`Save`/`Load`/`Last` methods that appear in the full source listing shipped
inside `src/README.md`.  Bytes are modelled as `Nat` (Go `byte` values are
always `< 256`; none of the algorithms depend on that bound except where
noted).  The arena (`Cache.memory`, a Go `[]byte`) is a `List Nat`.

Go slice accesses panic when out of bounds; the embedding totalises reads
with a default of `0` and records the bound that Go would check in the
predicate `slotInBounds`, which the safety theorems reason about explicitly.

Recursive descents (`insert`, `recall`) recurse on stored child indices; the
embedding gives them fuel `maxCap + 1`, which is never exhausted on any
state satisfying the structural invariant (child indices strictly increase
along edges and stay below `length ≤ maxCap`), so on such states the fueled
functions agree with the Go originals.
-/

namespace Dejavu

/-- Big-endian interpretation of a byte list (as `binary.BigEndian` does). -/
def beVal (bs : List Nat) : Nat := bs.foldl (fun a b => a * 256 + b) 0

/-- The four big-endian bytes of a 32-bit value, as produced by
`binary.BigEndian.PutUint32` (a larger `Nat` is truncated mod `2^32`,
matching Go's `uint32` conversion at every call site). -/
def u32be (v : Nat) : List Nat :=
  [v / 2 ^ 24 % 256, v / 2 ^ 16 % 256, v / 2 ^ 8 % 256, v % 256]

/-- `putUint32` from `cache.go`: copies the last `w` bytes of the big-endian
representation of `value` into a `w`-byte destination buffer (the buffer is
fully overwritten, so only its width `w` matters; Go panics for `w > 4`). -/
def putUint32 (w : Nat) (value : Nat) : List Nat :=
  (u32be value).drop (4 - w)

/-- `getUint32` from `cache.go`: zero-pads a representation shorter than
four bytes on the left and reads it as a big-endian 32-bit integer. -/
def getUint32 (bs : List Nat) : Nat :=
  beVal (List.replicate (4 - bs.length) 0 ++ bs)

/-- `bytes.Compare`: lexicographic three-way comparison of byte slices. -/
def bytesCompare : List Nat → List Nat → Ordering
  | [], [] => .eq
  | [], _ :: _ => .lt
  | _ :: _, [] => .gt
  | a :: as, b :: bs => if a < b then .lt else if b < a then .gt else bytesCompare as bs

/-- Loop of `log` from `cache.go`: increases `x` by `m` until
`1 << x ≥ n`.  The loop is embedded with fuel to keep it structurally
recursive; `logAux_fuel_ge` below shows the fuel passed by `log` is never
exhausted, so this agrees with the Go loop.  (Go loops forever when
`m = 0`; `log` is only ever called with `m = 8`.) -/
def logAux (n m : Nat) : Nat → Nat → Nat
  | x, 0 => x
  | x, fuel + 1 => if n ≤ 2 ^ x then x else logAux n m (x + m) fuel

/-- `log` from `cache.go`: returns `x ≥ log2 n` such that `x` is a multiple
of `m`, or `0` if `n = 0`. -/
def log (n m : Nat) : Nat :=
  if n = 0 then 0 else logAux n m 0 n

/-- The three error conditions `cache.go` reports (`fmt.Errorf` values). -/
inductive CacheError where
  | capacityExhausted
  | lengthMismatch
  | ioError
deriving DecidableEq, Repr

/-- The `Cache` struct from `cache.go` (the mutex only serialises writers
and has no sequential content, so it is not modelled). -/
structure Cache where
  memory : List Nat
  length : Nat
  idxLen : Nat
  valLen : Nat
  maxCap : Nat
deriving DecidableEq, Repr

/-- Byte `k` of the arena (Go panics out of bounds; here out-of-bounds
reads give `0` and bounds are tracked by `slotInBounds`). -/
def byteAt (m : List Nat) (k : Nat) : Nat := m.getD k 0

/-- The slice `m[pos : pos+len]` of the arena. -/
def readBytes (m : List Nat) (pos len : Nat) : List Nat :=
  (List.range len).map (fun j => byteAt m (pos + j))

/-- Element-wise copy of `bs` into `m` starting at `pos` (the copy loops in
`setVal`/`putUint32`); writes past the end of `m` are dropped, mirroring
that Go would panic before performing them. -/
def writeBytes (m : List Nat) (pos : Nat) (bs : List Nat) : List Nat :=
  (List.range m.length).map
    (fun k => if pos ≤ k ∧ k < pos + bs.length then bs.getD (k - pos) 0 else byteAt m k)

namespace Cache

/-- `nodeLen`: the length of a node in bytes. -/
def nodeLen (c : Cache) : Nat := c.valLen + 2 * c.idxLen

/-- `val`: the value of the `i`-th node. -/
def val (c : Cache) (i : Nat) : List Nat :=
  readBytes c.memory (i * c.nodeLen) c.valLen

/-- `idxL`: the index of the left child of the `i`-th node. -/
def idxL (c : Cache) (i : Nat) : Nat :=
  getUint32 (readBytes c.memory (i * c.nodeLen + c.valLen) c.idxLen)

/-- `idxR`: the index of the right child of the `i`-th node. -/
def idxR (c : Cache) (i : Nat) : Nat :=
  getUint32 (readBytes c.memory (i * c.nodeLen + c.valLen + c.idxLen) c.idxLen)

/-- `setVal`: overwrites the value of the `i`-th node. -/
def setVal (c : Cache) (i : Nat) (v : List Nat) : Cache :=
  { c with memory := writeBytes c.memory (i * c.nodeLen) v }

/-- `setIdxL`: overwrites the left-child index of the `i`-th node. -/
def setIdxL (c : Cache) (i idxVal : Nat) : Cache :=
  { c with memory := writeBytes c.memory (i * c.nodeLen + c.valLen) (putUint32 c.idxLen idxVal) }

/-- `setIdxR`: overwrites the right-child index of the `i`-th node. -/
def setIdxR (c : Cache) (i idxVal : Nat) : Cache :=
  { c with memory :=
      writeBytes c.memory (i * c.nodeLen + c.valLen + c.idxLen) (putUint32 c.idxLen idxVal) }

/-- `look`: three-way step of the descent.  Returns `-1` when `val` equals
the node's value, otherwise the relevant child index (`0` = no child), and
whether that child is the left one. -/
def look (c : Cache) (i : Nat) (v : List Nat) : Int × Bool :=
  match bytesCompare (c.val i) v with
  | .eq => (-1, false)
  | .gt => ((c.idxL i : Int), true)
  | .lt => ((c.idxR i : Int), false)

/-- The (unexported) recursive `insert` of `cache.go`, with fuel.  On a
fuel-out the cache is returned unchanged; states reachable through the
public API never exhaust the fuel chosen below. -/
def insertAux (c : Cache) : Nat → Nat → List Nat → Cache
  | 0, _, _ => c
  | fuel + 1, i, v =>
    let nl := c.look i v
    if nl.1 = -1 then c
    else if nl.1 = 0 then
      let c1 := c.setVal c.length v
      let c2 := if nl.2 then c1.setIdxL i c.length else c1.setIdxR i c.length
      { c2 with length := c2.length + 1 }
    else insertAux c fuel nl.1.toNat v

/-- The (unexported) recursive `recall` of `cache.go`, with fuel. -/
def recallAux (c : Cache) : Nat → Nat → List Nat → Bool
  | 0, _, _ => false
  | fuel + 1, i, v =>
    let nl := c.look i v
    if nl.1 = -1 then true
    else if nl.1 = 0 then false
    else recallAux c fuel nl.1.toNat v

/-- Exported `Insert`: checks capacity, then value length, then descends
from the root.  The Go method mutates its receiver and returns an error;
here the new state is returned alongside the error. -/
def Insert (c : Cache) (value : List Nat) : Option CacheError × Cache :=
  if c.length = c.maxCap then (some .capacityExhausted, c)
  else if value.length ≠ c.valLen then (some .lengthMismatch, c)
  else (none, insertAux c (c.maxCap + 1) 0 value)

/-- Exported `Recall`: `(cached, error)` as in Go. -/
def Recall (c : Cache) (value : List Nat) : Bool × Option CacheError :=
  if value.length ≠ c.valLen then (false, some .lengthMismatch)
  else (recallAux c (c.maxCap + 1) 0 value, none)

/-- Exported `Length`. -/
def Length (c : Cache) : Nat := c.length

/-- Exported `Size`. -/
def Size (c : Cache) : Nat := c.memory.length

/-- Exported `Last` (from the README listing): the most recently appended
value, or `none` (Go: a nil slice) when the cache is empty. -/
def Last (c : Cache) : Option (List Nat) :=
  if c.length = 0 then none else some (c.val (c.length - 1))

/-- The value-emitting loop of `Save`: `k` iterations starting at slot `i`
(the Go loop runs `for i = 0; i < c.length; i++`, i.e. `c.length`
iterations from slot `0`). -/
def saveLoop (c : Cache) : Nat → Nat → List Nat
  | 0, _ => []
  | k + 1, i => c.val i ++ saveLoop c k (i + 1)

/-- Exported `Save` (from the README listing), with an infallible byte sink
(like `bytes.Buffer`): 4-byte big-endian `valLen`, 4-byte big-endian
`length`, then the value of every occupied slot in slot order. -/
def Save (c : Cache) : List Nat :=
  u32be c.valLen ++ u32be c.length ++ saveLoop c c.length 0

/-- The value-reading loop of `Load`: reads `valLen` bytes per iteration
and runs the internal insert on them.  A truncated stream yields the I/O
error Go gets from a drained reader, keeping already-performed insertions. -/
def loadLoop (c : Cache) : Nat → List Nat → Option CacheError × Cache
  | 0, _ => (none, c)
  | k + 1, s =>
    if s.length < c.valLen then (some .ioError, c)
    else loadLoop (insertAux c (c.maxCap + 1) 0 (s.take c.valLen)) k (s.drop c.valLen)

/-- Exported `Load` (from the README listing), with the byte stream as a
list: reads the two headers, rejects a value-length mismatch, rejects a
count exceeding the remaining headroom, then inserts each value in order. -/
def Load (c : Cache) (s : List Nat) : Option CacheError × Cache :=
  if s.length < 4 then (some .ioError, c)
  else
    let valLen := getUint32 (s.take 4)
    let s1 := s.drop 4
    if s1.length < 4 then (some .ioError, c)
    else
      let count := getUint32 (s1.take 4)
      let s2 := s1.drop 4
      if valLen ≠ c.valLen then (some .lengthMismatch, c)
      else if count > c.maxCap - c.length then (some .capacityExhausted, c)
      else loadLoop c count s2

end Cache

/-- `newCache(l, n)`: a zeroed arena of `n` nodes for `l`-bit values. -/
def newCache (l n : Nat) : Cache :=
  let idxLen := log n 8 / 8
  let valLen := l / 8
  { memory := List.replicate (n * (valLen + 2 * idxLen)) 0
    length := 0
    idxLen := idxLen
    valLen := valLen
    maxCap := n }

/-- `NewCache128(n)`: up to `n` 128-bit values. -/
def NewCache128 (n : Nat) : Cache := newCache 128 n

/-- The all-zero 16-byte value (the configured length of `NewCache128`). -/
def zeros16 : List Nat := List.replicate 16 0

/-- A 16-byte value ending in `1`. -/
def val16a : List Nat := List.replicate 15 0 ++ [1]

/-- A 16-byte value ending in `2`. -/
def val16b : List Nat := List.replicate 15 0 ++ [2]

/-- Go's slice bound for touching node `i`: every byte of the node lies
inside the arena.  `val`, `idxL`, `idxR` and the three setters on node `i`
panic in Go exactly when this fails. -/
def slotInBounds (c : Cache) (i : Nat) : Prop :=
  (i + 1) * c.nodeLen ≤ c.memory.length

instance (c : Cache) (i : Nat) : Decidable (slotInBounds c i) := by
  unfold slotInBounds; infer_instance

/-- The slots visited by the `recall` descent (the `insert` descent visits
the same slots, since both step through `look`). -/
def recallPath (c : Cache) : Nat → Nat → List Nat → List Nat
  | 0, _, _ => []
  | fuel + 1, i, v =>
    i ::
      (let nl := c.look i v
       if nl.1 = -1 then []
       else if nl.1 = 0 then []
       else recallPath c fuel nl.1.toNat v)

/-- Cache states reachable through the public constructor and the mutating
operations (`Recall`, `Save`, `Last`, `Length`, `Size` do not produce new
states).  `n < 2^32` reflects the Go parameter type `uint32`. -/
inductive Reachable : Cache → Prop where
  | new (l n : Nat) (hn : n < 2 ^ 32) : Reachable (newCache l n)
  | insert {c : Cache} (v : List Nat) : Reachable c → Reachable (c.Insert v).2
  | load {c : Cache} (s : List Nat) : Reachable c → Reachable (c.Load s).2

/-! ### Specification-side devices

The following definitions are not translations of Go code; they are the
abstractions the invariant proofs are stated against: the descent target
`findSpot`, the mutation `applyInsert` it induces, the binary tree
`toTree` read off the arena, and the abstract BST predicates. -/

/-- The single mutation the recursive `insert` performs once the descent
reaches an absent child: write `v` into slot `length`, point side `side`
of node `p` at it, and bump `length`. -/
def Cache.applyInsert (c : Cache) (p : Nat) (side : Bool) (v : List Nat) : Cache :=
  let c1 := c.setVal c.length v
  let c2 := if side then c1.setIdxL p c.length else c1.setIdxR p c.length
  { c2 with length := c2.length + 1 }

/-- Where the `insert` descent starting at slot `i` ends: `none` when the
value is found (or the fuel runs out), `some (p, side)` when child `side`
of node `p` is absent and a new node would be appended there. -/
def Cache.findSpot (c : Cache) : Nat → Nat → List Nat → Option (Nat × Bool)
  | 0, _, _ => none
  | fuel + 1, i, v =>
    match bytesCompare (c.val i) v with
    | .eq => none
    | .gt => if c.idxL i = 0 then some (i, true) else c.findSpot fuel (c.idxL i) v
    | .lt => if c.idxR i = 0 then some (i, false) else c.findSpot fuel (c.idxR i) v

/-- Binary trees carrying the slot number and the stored value of each
node, as read off the arena by `toTree`. -/
inductive BTree where
  | leaf : BTree
  | node (slot : Nat) (value : List Nat) (left right : BTree) : BTree
deriving DecidableEq, Repr

/-- Reads the subtree rooted at slot `i` off the arena, following child
indices (`0` = no child), truncated by `fuel`.  On every state satisfying
the invariant, child slots strictly increase along edges, so fuel
`c.length - i` suffices and the reading is exact. -/
def Cache.toTree (c : Cache) : Nat → Nat → BTree
  | 0, _ => .leaf
  | fuel + 1, i =>
    .node i (c.val i)
      (if c.idxL i = 0 then .leaf else c.toTree fuel (c.idxL i))
      (if c.idxR i = 0 then .leaf else c.toTree fuel (c.idxR i))

/-- The slots of a tree, preorder. -/
def BTree.tslots : BTree → List Nat
  | .leaf => []
  | .node s _ l r => s :: (l.tslots ++ r.tslots)

/-- The values of a tree, preorder. -/
def BTree.tvals : BTree → List (List Nat)
  | .leaf => []
  | .node _ v l r => v :: (l.tvals ++ r.tvals)

/-- Strict binary-search-tree property under byte-lexicographic
comparison: everything left is smaller, everything right is greater. -/
def BTree.isBST : BTree → Bool
  | .leaf => true
  | .node _ v l r =>
    l.tvals.all (fun x => decide (bytesCompare x v = .lt)) &&
    r.tvals.all (fun x => decide (bytesCompare v x = .lt)) &&
    l.isBST && r.isBST

/-- Abstract unbalanced BST insertion of value `v` as a node with slot
number `s`, mirroring the descent of `insert` (no-op on an equal value). -/
def BTree.tinsert (v : List Nat) (s : Nat) : BTree → BTree
  | .leaf => .node s v .leaf .leaf
  | .node s' v' l r =>
    match bytesCompare v' v with
    | .eq => .node s' v' l r
    | .gt => .node s' v' (l.tinsert v s) r
    | .lt => .node s' v' l (r.tinsert v s)

/-- The tree reachable from the root with canonical fuel. -/
def Cache.rootTree (c : Cache) : BTree := c.toTree c.length 0

/-- Child indices of every occupied slot are either the sentinel `0` or
strictly larger slots inside the occupied prefix.  (New nodes are always
appended at slot `length`, so parents point forward.) -/
def Cache.idxOK (c : Cache) : Prop :=
  ∀ i, i < c.length →
    (c.idxL i = 0 ∨ (i < c.idxL i ∧ c.idxL i < c.length)) ∧
    (c.idxR i = 0 ∨ (i < c.idxR i ∧ c.idxR i < c.length))

/-- The structural invariant of a `Cache`.  Beyond the claim-facing facts
(`length ≤ capacity`, the occupied prefix is exactly the tree, the tree is
a strict BST), it records what the preservation proof needs: the arena has
its constructed size, the index width can address every slot and is at
most four bytes, the unoccupied suffix of the arena is still zeroed, and
child indices of occupied slots are sentinel or strictly increasing and
inside the occupied prefix. -/
def CacheInv (c : Cache) : Prop :=
  c.memory.length = c.maxCap * c.nodeLen ∧
  c.length ≤ c.maxCap ∧
  c.idxLen ≤ 4 ∧
  c.maxCap ≤ 2 ^ (8 * c.idxLen) ∧
  (∀ k, c.length * c.nodeLen ≤ k → k < c.memory.length → byteAt c.memory k = 0) ∧
  c.idxOK ∧
  (1 ≤ c.length → c.rootTree.tslots.length = c.length ∧ c.rootTree.isBST = true)

/-- The claim-facing part of the invariant: `length` within capacity and,
when nonempty, the stored nodes are exactly the contiguous prefix
`[0, length)` of the arena, forming a strict (duplicate-free) BST under
byte-lexicographic comparison. -/
def InvClaim (c : Cache) : Prop :=
  c.length ≤ c.maxCap ∧
  (1 ≤ c.length →
    c.rootTree.tslots.Perm (List.range c.length) ∧
    c.rootTree.isBST = true ∧
    c.rootTree.tvals.Nodup)

/-! ## Byte-array lemmas -/

theorem byteAt_oob {m : List Nat} {k : Nat} (h : m.length ≤ k) : byteAt m k = 0 :=
  List.getD_eq_default _ _ h

theorem getD_map_range (f : Nat → Nat) (n k : Nat) :
    ((List.range n).map f).getD k 0 = if k < n then f k else 0 := by
  rcases Nat.lt_or_ge k n with h | h
  · rw [List.getD_eq_getElem?_getD, List.getElem?_map, List.getElem?_range h]
    simp [h]
  · rw [List.getD_eq_default]
    · simp [h, Nat.not_lt_of_ge h]
    · simpa using h

theorem map_getD_range_eq (l : List Nat) :
    (List.range l.length).map (fun j => l.getD j 0) = l := by
  apply List.ext_getElem
  · simp
  · intro i h1 h2
    simp only [List.getElem_map, List.getElem_range]
    rw [List.getD_eq_getElem _ _ h2]

@[simp]
theorem writeBytes_length (m : List Nat) (pos : Nat) (bs : List Nat) :
    (writeBytes m pos bs).length = m.length := by
  simp [writeBytes]

theorem byteAt_writeBytes (m : List Nat) (pos : Nat) (bs : List Nat) (k : Nat) :
    byteAt (writeBytes m pos bs) k =
      if k < m.length then
        (if pos ≤ k ∧ k < pos + bs.length then bs.getD (k - pos) 0 else byteAt m k)
      else 0 := by
  unfold writeBytes byteAt
  rw [getD_map_range]

@[simp]
theorem readBytes_length (m : List Nat) (pos len : Nat) :
    (readBytes m pos len).length = len := by
  simp [readBytes]

theorem readBytes_getD (m : List Nat) (pos len j : Nat) (hj : j < len) :
    (readBytes m pos len).getD j 0 = byteAt m (pos + j) := by
  unfold readBytes
  rw [getD_map_range]
  simp [hj]

theorem readBytes_ext {m₁ m₂ : List Nat} {pos₁ pos₂ len : Nat}
    (h : ∀ j < len, byteAt m₁ (pos₁ + j) = byteAt m₂ (pos₂ + j)) :
    readBytes m₁ pos₁ len = readBytes m₂ pos₂ len := by
  unfold readBytes
  apply List.ext_getElem
  · simp
  · intro i h1 h2
    simp only [List.getElem_map, List.getElem_range]
    exact h i (by simpa using h1)

theorem readBytes_writeBytes_disjoint {m : List Nat} {pos₁ : Nat} {bs : List Nat}
    {pos₂ len : Nat} (h : pos₂ + len ≤ pos₁ ∨ pos₁ + bs.length ≤ pos₂) :
    readBytes (writeBytes m pos₁ bs) pos₂ len = readBytes m pos₂ len := by
  apply readBytes_ext
  intro j hj
  rw [byteAt_writeBytes]
  by_cases hk : pos₂ + j < m.length
  · simp only [hk, if_true]
    have : ¬ (pos₁ ≤ pos₂ + j ∧ pos₂ + j < pos₁ + bs.length) := by omega
    simp [this]
  · rw [if_neg hk, byteAt_oob (by omega)]

theorem readBytes_writeBytes_exact {m : List Nat} {pos : Nat} {bs : List Nat}
    (h : pos + bs.length ≤ m.length) :
    readBytes (writeBytes m pos bs) pos bs.length = bs := by
  unfold readBytes
  conv_rhs => rw [← map_getD_range_eq bs]
  apply List.ext_getElem
  · simp
  · intro i h1 h2
    simp only [List.getElem_map, List.getElem_range]
    have hi : i < bs.length := by simpa using h1
    rw [byteAt_writeBytes]
    have hk : pos + i < m.length := by omega
    simp only [hk, if_true]
    have : pos ≤ pos + i ∧ pos + i < pos + bs.length := by omega
    simp [this]

theorem readBytes_zeros {m : List Nat} {pos len : Nat}
    (h : ∀ k, pos ≤ k → byteAt m k = 0) :
    readBytes m pos len = List.replicate len 0 := by
  unfold readBytes
  apply List.ext_getElem
  · simp
  · intro i h1 h2
    simp only [List.getElem_map, List.getElem_range, List.getElem_replicate]
    exact h (pos + i) (by omega)

/-! ## `beVal`, `getUint32`, `putUint32` lemmas -/

theorem beVal_cons (b : Nat) (bs : List Nat) :
    beVal (b :: bs) = bs.foldl (fun a x => a * 256 + x) b := by
  simp [beVal]

theorem beVal_replicate_zero_append (k : Nat) (bs : List Nat) :
    beVal (List.replicate k 0 ++ bs) = beVal bs := by
  induction k with
  | zero => simp
  | succ n ih =>
    rw [List.replicate_succ, List.cons_append]
    unfold beVal at *
    simpa using ih

theorem getUint32_eq_beVal (bs : List Nat) : getUint32 bs = beVal bs := by
  unfold getUint32
  rw [beVal_replicate_zero_append]

theorem beVal_replicate_zero (k : Nat) : beVal (List.replicate k 0) = 0 := by
  have := beVal_replicate_zero_append k []
  simpa [beVal] using this

theorem getUint32_putUint32 {w : Nat} (hw : w ≤ 4) (v : Nat) :
    getUint32 (putUint32 w v) = v % 2 ^ (8 * w) := by
  rw [getUint32_eq_beVal]
  interval_cases w <;> simp [putUint32, u32be, beVal] <;> omega

theorem putUint32_zero {w : Nat} (hw : w ≤ 4) :
    putUint32 w 0 = List.replicate w 0 := by
  interval_cases w <;> simp [putUint32, u32be, List.replicate]

@[simp]
theorem putUint32_length {w : Nat} (hw : w ≤ 4) (v : Nat) :
    (putUint32 w v).length = w := by
  simp [putUint32, u32be]
  omega

/-! ## `bytesCompare` lemmas -/

theorem bytesCompare_eq_iff : ∀ {a b : List Nat}, bytesCompare a b = .eq ↔ a = b := by
  intro a
  induction a with
  | nil => intro b; cases b <;> simp [bytesCompare]
  | cons x xs ih =>
    intro b
    cases b with
    | nil => simp [bytesCompare]
    | cons y ys =>
      unfold bytesCompare
      rcases Nat.lt_trichotomy x y with h | h | h
      · simp [h]; omega
      · subst h
        simp only [Nat.lt_irrefl, if_false]
        rw [ih]
        simp
      · rw [if_neg (by omega), if_pos h]
        simp; omega

theorem bytesCompare_swap : ∀ {a b : List Nat},
    bytesCompare b a = (bytesCompare a b).swap := by
  intro a
  induction a with
  | nil => intro b; cases b <;> simp [bytesCompare, Ordering.swap]
  | cons x xs ih =>
    intro b
    cases b with
    | nil => simp [bytesCompare, Ordering.swap]
    | cons y ys =>
      unfold bytesCompare
      rcases Nat.lt_trichotomy x y with h | h | h
      · rw [if_neg (by omega), if_pos h, if_pos h]
        rfl
      · subst h
        simp only [Nat.lt_irrefl, if_false]
        exact ih
      · rw [if_pos h, if_neg (by omega), if_pos h]
        rfl

theorem bytesCompare_gt_iff_lt {a b : List Nat} :
    bytesCompare a b = .gt ↔ bytesCompare b a = .lt := by
  rw [bytesCompare_swap (a := a) (b := b)]
  cases bytesCompare a b <;> simp [Ordering.swap]

/-- A zero byte string is never strictly greater than a string of the same
length (it is the lexicographic minimum). -/
theorem bytesCompare_replicate_zero_ne_gt :
    ∀ {n : Nat} {v : List Nat}, v.length = n →
      bytesCompare (List.replicate n 0) v ≠ .gt := by
  intro n
  induction n with
  | zero =>
    intro v hv
    rw [List.length_eq_zero] at hv
    subst hv
    simp [bytesCompare]
  | succ k ih =>
    intro v hv
    cases v with
    | nil => simp at hv
    | cons y ys =>
      rw [List.replicate_succ]
      unfold bytesCompare
      rcases Nat.eq_zero_or_pos y with hy | hy
      · subst hy
        simp only [Nat.lt_irrefl, if_false]
        exact ih (by simpa using hv)
      · rw [if_pos hy]
        simp

/-! ## `log` lemmas -/

theorem logAux_ge (n m : Nat) :
    ∀ fuel x, n ≤ 2 ^ (x + m * fuel) → n ≤ 2 ^ logAux n m x fuel := by
  intro fuel
  induction fuel with
  | zero => intro x h; simpa [logAux] using h
  | succ f ih =>
    intro x h
    by_cases hx : n ≤ 2 ^ x
    · simp [logAux, hx]
    · rw [logAux, if_neg hx]
      apply ih
      have he : x + m + m * f = x + m * (f + 1) := by ring
      rw [he]
      exact h

theorem logAux_form (n m : Nat) :
    ∀ fuel x, ∃ k, logAux n m x fuel = x + m * k := by
  intro fuel
  induction fuel with
  | zero => intro x; exact ⟨0, by simp [logAux]⟩
  | succ f ih =>
    intro x
    by_cases hx : n ≤ 2 ^ x
    · exact ⟨0, by simp [logAux, hx]⟩
    · obtain ⟨k, hk⟩ := ih (x + m)
      refine ⟨k + 1, ?_⟩
      rw [logAux, if_neg hx, hk]
      ring

theorem logAux_min (n m : Nat) :
    ∀ fuel x y, (∃ k, y = x + m * k) → y < logAux n m x fuel → 2 ^ y < n := by
  intro fuel
  induction fuel with
  | zero =>
    intro x y ⟨k, hy⟩ hlt
    simp only [logAux] at hlt
    omega
  | succ f ih =>
    intro x y ⟨k, hy⟩ hlt
    by_cases hx : n ≤ 2 ^ x
    · rw [logAux, if_pos hx] at hlt
      omega
    · rw [logAux, if_neg hx] at hlt
      cases k with
      | zero =>
        have : y = x := by omega
        subst this
        omega
      | succ k' =>
        exact ih (x + m) y ⟨k', by rw [hy]; ring⟩ hlt

theorem log_ge {n : Nat} (hn : 1 ≤ n) : n ≤ 2 ^ log n 8 := by
  rw [log, if_neg (by omega)]
  apply logAux_ge
  calc n ≤ 2 ^ n := Nat.le_of_lt n.lt_two_pow
    _ ≤ 2 ^ (0 + 8 * n) := Nat.pow_le_pow_right (by norm_num) (by omega)

theorem log_form (n : Nat) : ∃ k, log n 8 = 8 * k := by
  by_cases hn : n = 0
  · exact ⟨0, by simp [log, hn]⟩
  · rw [log, if_neg hn]
    obtain ⟨k, hk⟩ := logAux_form n 8 n 0
    exact ⟨k, by omega⟩

theorem log_min (n : Nat) : ∀ y, (∃ k, y = 8 * k) → y < log n 8 → 2 ^ y < n := by
  intro y ⟨k, hy⟩ hlt
  by_cases hn : n = 0
  · rw [log, if_pos hn] at hlt
    omega
  · rw [log, if_neg hn] at hlt
    exact logAux_min n 8 n 0 y ⟨k, by omega⟩ hlt

/-- The index width computed by `newCache` is the least whole-byte width
`w` with `n ≤ 2 ^ (8w)`, i.e. whose bit count can represent all slot
numbers in `[0, n)`. -/
theorem idxLen_least (n : Nat) :
    n ≤ 2 ^ (8 * (log n 8 / 8)) ∧ ∀ w, w < log n 8 / 8 → 2 ^ (8 * w) < n := by
  obtain ⟨k, hk⟩ := log_form n
  have hdiv : log n 8 / 8 = k := by omega
  constructor
  · by_cases hn : n = 0
    · simp [hn]
    · have := log_ge (n := n) (by omega)
      rwa [hdiv, ← hk]
  · intro w hw
    apply log_min n (8 * w) ⟨w, rfl⟩
    omega

theorem idxLen_le_four {n : Nat} (hn : n < 2 ^ 32) : log n 8 / 8 ≤ 4 := by
  by_contra h
  have := (idxLen_least n).2 4 (by omega)
  norm_num at this
  omega

/-! ## Frame lemmas: how each write affects each accessor -/

theorem window_le {a b : Nat} (nl : Nat) (h : a < b) : (a + 1) * nl ≤ b * nl :=
  Nat.mul_le_mul_right _ h

@[simp]
theorem Cache.setVal_memory (c : Cache) (i : Nat) (v : List Nat) :
    (c.setVal i v).memory = writeBytes c.memory (i * c.nodeLen) v := rfl

@[simp]
theorem Cache.setIdxL_memory (c : Cache) (i x : Nat) :
    (c.setIdxL i x).memory =
      writeBytes c.memory (i * c.nodeLen + c.valLen) (putUint32 c.idxLen x) := rfl

@[simp]
theorem Cache.setIdxR_memory (c : Cache) (i x : Nat) :
    (c.setIdxR i x).memory =
      writeBytes c.memory (i * c.nodeLen + c.valLen + c.idxLen) (putUint32 c.idxLen x) := rfl

@[simp]
theorem Cache.setVal_valLen (c : Cache) (i : Nat) (v : List Nat) :
    (c.setVal i v).valLen = c.valLen := rfl

@[simp]
theorem Cache.setVal_idxLen (c : Cache) (i : Nat) (v : List Nat) :
    (c.setVal i v).idxLen = c.idxLen := rfl

@[simp]
theorem Cache.setVal_length (c : Cache) (i : Nat) (v : List Nat) :
    (c.setVal i v).length = c.length := rfl

@[simp]
theorem Cache.setVal_maxCap (c : Cache) (i : Nat) (v : List Nat) :
    (c.setVal i v).maxCap = c.maxCap := rfl

@[simp]
theorem Cache.setVal_nodeLen (c : Cache) (i : Nat) (v : List Nat) :
    (c.setVal i v).nodeLen = c.nodeLen := rfl

@[simp]
theorem Cache.setIdxL_valLen (c : Cache) (i x : Nat) : (c.setIdxL i x).valLen = c.valLen := rfl

@[simp]
theorem Cache.setIdxL_idxLen (c : Cache) (i x : Nat) : (c.setIdxL i x).idxLen = c.idxLen := rfl

@[simp]
theorem Cache.setIdxL_length (c : Cache) (i x : Nat) : (c.setIdxL i x).length = c.length := rfl

@[simp]
theorem Cache.setIdxL_maxCap (c : Cache) (i x : Nat) : (c.setIdxL i x).maxCap = c.maxCap := rfl

@[simp]
theorem Cache.setIdxL_nodeLen (c : Cache) (i x : Nat) : (c.setIdxL i x).nodeLen = c.nodeLen := rfl

@[simp]
theorem Cache.setIdxR_valLen (c : Cache) (i x : Nat) : (c.setIdxR i x).valLen = c.valLen := rfl

@[simp]
theorem Cache.setIdxR_idxLen (c : Cache) (i x : Nat) : (c.setIdxR i x).idxLen = c.idxLen := rfl

@[simp]
theorem Cache.setIdxR_length (c : Cache) (i x : Nat) : (c.setIdxR i x).length = c.length := rfl

@[simp]
theorem Cache.setIdxR_maxCap (c : Cache) (i x : Nat) : (c.setIdxR i x).maxCap = c.maxCap := rfl

@[simp]
theorem Cache.setIdxR_nodeLen (c : Cache) (i x : Nat) : (c.setIdxR i x).nodeLen = c.nodeLen := rfl

theorem Cache.nodeLen_eq (c : Cache) : c.nodeLen = c.valLen + 2 * c.idxLen := rfl

theorem Cache.val_setVal_self (c : Cache) {i : Nat} {v : List Nat}
    (hv : v.length = c.valLen) (hb : (i + 1) * c.nodeLen ≤ c.memory.length) :
    (c.setVal i v).val i = v := by
  unfold Cache.val
  simp only [Cache.setVal_memory, Cache.setVal_valLen, Cache.setVal_nodeLen]
  rw [← hv]
  apply readBytes_writeBytes_exact
  have h1 : (i + 1) * c.nodeLen = i * c.nodeLen + c.nodeLen := by ring
  have h2 := c.nodeLen_eq
  omega

theorem Cache.val_setVal_ne (c : Cache) {i j : Nat} {v : List Nat}
    (hv : v.length = c.valLen) (hij : j ≠ i) :
    (c.setVal i v).val j = c.val j := by
  unfold Cache.val
  simp only [Cache.setVal_memory, Cache.setVal_valLen, Cache.setVal_nodeLen]
  apply readBytes_writeBytes_disjoint
  have h2 := c.nodeLen_eq
  rcases Nat.lt_or_ge j i with h | h
  · left
    have hw := window_le c.nodeLen h
    have h1 : (j + 1) * c.nodeLen = j * c.nodeLen + c.nodeLen := by ring
    omega
  · right
    have hw := window_le c.nodeLen (by omega : i < j)
    have h1 : (i + 1) * c.nodeLen = i * c.nodeLen + c.nodeLen := by ring
    omega

theorem Cache.idxL_setVal (c : Cache) {i : Nat} {v : List Nat} (j : Nat)
    (hv : v.length = c.valLen) :
    (c.setVal i v).idxL j = c.idxL j := by
  unfold Cache.idxL
  simp only [Cache.setVal_memory, Cache.setVal_valLen, Cache.setVal_idxLen,
    Cache.setVal_nodeLen]
  congr 1
  apply readBytes_writeBytes_disjoint
  have h2 := c.nodeLen_eq
  rcases Nat.lt_trichotomy j i with h | h | h
  · left
    have hw := window_le c.nodeLen h
    have h1 : (j + 1) * c.nodeLen = j * c.nodeLen + c.nodeLen := by ring
    omega
  · subst h
    right
    omega
  · right
    have hw := window_le c.nodeLen h
    have h1 : (i + 1) * c.nodeLen = i * c.nodeLen + c.nodeLen := by ring
    omega

theorem Cache.idxR_setVal (c : Cache) {i : Nat} {v : List Nat} (j : Nat)
    (hv : v.length = c.valLen) :
    (c.setVal i v).idxR j = c.idxR j := by
  unfold Cache.idxR
  simp only [Cache.setVal_memory, Cache.setVal_valLen, Cache.setVal_idxLen,
    Cache.setVal_nodeLen]
  congr 1
  apply readBytes_writeBytes_disjoint
  have h2 := c.nodeLen_eq
  rcases Nat.lt_trichotomy j i with h | h | h
  · left
    have hw := window_le c.nodeLen h
    have h1 : (j + 1) * c.nodeLen = j * c.nodeLen + c.nodeLen := by ring
    omega
  · subst h
    right
    omega
  · right
    have hw := window_le c.nodeLen h
    have h1 : (i + 1) * c.nodeLen = i * c.nodeLen + c.nodeLen := by ring
    omega

theorem getUint32_read_write {m : List Nat} {pos w x : Nat} (h4 : w ≤ 4)
    (hb : pos + w ≤ m.length) :
    getUint32 (readBytes (writeBytes m pos (putUint32 w x)) pos w) = x % 2 ^ (8 * w) := by
  have hlen : (putUint32 w x).length = w := putUint32_length h4 x
  have h1 := @readBytes_writeBytes_exact m pos (putUint32 w x) (by rw [hlen]; omega)
  rw [hlen] at h1
  rw [h1]
  exact getUint32_putUint32 h4 x

theorem Cache.idxL_setIdxL_self (c : Cache) {p x : Nat} (h4 : c.idxLen ≤ 4)
    (hb : (p + 1) * c.nodeLen ≤ c.memory.length) :
    (c.setIdxL p x).idxL p = x % 2 ^ (8 * c.idxLen) := by
  unfold Cache.idxL
  simp only [Cache.setIdxL_memory, Cache.setIdxL_valLen, Cache.setIdxL_idxLen,
    Cache.setIdxL_nodeLen]
  apply getUint32_read_write h4
  have h1 : (p + 1) * c.nodeLen = p * c.nodeLen + c.nodeLen := by ring
  have h2 := c.nodeLen_eq
  omega

theorem Cache.idxL_setIdxL_ne (c : Cache) {p x : Nat} (j : Nat) (h4 : c.idxLen ≤ 4)
    (hj : j ≠ p) :
    (c.setIdxL p x).idxL j = c.idxL j := by
  unfold Cache.idxL
  simp only [Cache.setIdxL_memory, Cache.setIdxL_valLen, Cache.setIdxL_idxLen,
    Cache.setIdxL_nodeLen]
  congr 1
  apply readBytes_writeBytes_disjoint
  rw [putUint32_length h4]
  have h2 := c.nodeLen_eq
  rcases Nat.lt_or_ge j p with h | h
  · left
    have hw := window_le c.nodeLen h
    have h1 : (j + 1) * c.nodeLen = j * c.nodeLen + c.nodeLen := by ring
    omega
  · right
    have hw := window_le c.nodeLen (by omega : p < j)
    have h1 : (p + 1) * c.nodeLen = p * c.nodeLen + c.nodeLen := by ring
    omega

theorem Cache.idxR_setIdxL (c : Cache) {p x : Nat} (j : Nat) (h4 : c.idxLen ≤ 4) :
    (c.setIdxL p x).idxR j = c.idxR j := by
  unfold Cache.idxR
  simp only [Cache.setIdxL_memory, Cache.setIdxL_valLen, Cache.setIdxL_idxLen,
    Cache.setIdxL_nodeLen]
  congr 1
  apply readBytes_writeBytes_disjoint
  rw [putUint32_length h4]
  have h2 := c.nodeLen_eq
  rcases Nat.lt_trichotomy j p with h | h | h
  · left
    have hw := window_le c.nodeLen h
    have h1 : (j + 1) * c.nodeLen = j * c.nodeLen + c.nodeLen := by ring
    omega
  · subst h
    right
    omega
  · right
    have hw := window_le c.nodeLen h
    have h1 : (p + 1) * c.nodeLen = p * c.nodeLen + c.nodeLen := by ring
    omega

theorem Cache.idxL_setIdxR (c : Cache) {p x : Nat} (j : Nat) (h4 : c.idxLen ≤ 4) :
    (c.setIdxR p x).idxL j = c.idxL j := by
  unfold Cache.idxL
  simp only [Cache.setIdxR_memory, Cache.setIdxR_valLen, Cache.setIdxR_idxLen,
    Cache.setIdxR_nodeLen]
  congr 1
  apply readBytes_writeBytes_disjoint
  rw [putUint32_length h4]
  have h2 := c.nodeLen_eq
  rcases Nat.lt_trichotomy j p with h | h | h
  · left
    have hw := window_le c.nodeLen h
    have h1 : (j + 1) * c.nodeLen = j * c.nodeLen + c.nodeLen := by ring
    omega
  · subst h
    left
    omega
  · right
    have hw := window_le c.nodeLen h
    have h1 : (p + 1) * c.nodeLen = p * c.nodeLen + c.nodeLen := by ring
    omega

theorem Cache.idxR_setIdxR_self (c : Cache) {p x : Nat} (h4 : c.idxLen ≤ 4)
    (hb : (p + 1) * c.nodeLen ≤ c.memory.length) :
    (c.setIdxR p x).idxR p = x % 2 ^ (8 * c.idxLen) := by
  unfold Cache.idxR
  simp only [Cache.setIdxR_memory, Cache.setIdxR_valLen, Cache.setIdxR_idxLen,
    Cache.setIdxR_nodeLen]
  apply getUint32_read_write h4
  have h1 : (p + 1) * c.nodeLen = p * c.nodeLen + c.nodeLen := by ring
  have h2 := c.nodeLen_eq
  omega

theorem Cache.idxR_setIdxR_ne (c : Cache) {p x : Nat} (j : Nat) (h4 : c.idxLen ≤ 4)
    (hj : j ≠ p) :
    (c.setIdxR p x).idxR j = c.idxR j := by
  unfold Cache.idxR
  simp only [Cache.setIdxR_memory, Cache.setIdxR_valLen, Cache.setIdxR_idxLen,
    Cache.setIdxR_nodeLen]
  congr 1
  apply readBytes_writeBytes_disjoint
  rw [putUint32_length h4]
  have h2 := c.nodeLen_eq
  rcases Nat.lt_or_ge j p with h | h
  · left
    have hw := window_le c.nodeLen h
    have h1 : (j + 1) * c.nodeLen = j * c.nodeLen + c.nodeLen := by ring
    omega
  · right
    have hw := window_le c.nodeLen (by omega : p < j)
    have h1 : (p + 1) * c.nodeLen = p * c.nodeLen + c.nodeLen := by ring
    omega

theorem Cache.val_setIdxL (c : Cache) {p x : Nat} (j : Nat) (h4 : c.idxLen ≤ 4) :
    (c.setIdxL p x).val j = c.val j := by
  unfold Cache.val
  simp only [Cache.setIdxL_memory, Cache.setIdxL_valLen, Cache.setIdxL_nodeLen]
  apply readBytes_writeBytes_disjoint
  rw [putUint32_length h4]
  have h2 := c.nodeLen_eq
  rcases Nat.lt_trichotomy j p with h | h | h
  · left
    have hw := window_le c.nodeLen h
    have h1 : (j + 1) * c.nodeLen = j * c.nodeLen + c.nodeLen := by ring
    omega
  · subst h
    left
    omega
  · right
    have hw := window_le c.nodeLen h
    have h1 : (p + 1) * c.nodeLen = p * c.nodeLen + c.nodeLen := by ring
    omega

theorem Cache.val_setIdxR (c : Cache) {p x : Nat} (j : Nat) (h4 : c.idxLen ≤ 4) :
    (c.setIdxR p x).val j = c.val j := by
  unfold Cache.val
  simp only [Cache.setIdxR_memory, Cache.setIdxR_valLen, Cache.setIdxR_nodeLen]
  apply readBytes_writeBytes_disjoint
  rw [putUint32_length h4]
  have h2 := c.nodeLen_eq
  rcases Nat.lt_trichotomy j p with h | h | h
  · left
    have hw := window_le c.nodeLen h
    have h1 : (j + 1) * c.nodeLen = j * c.nodeLen + c.nodeLen := by ring
    omega
  · subst h
    left
    omega
  · right
    have hw := window_le c.nodeLen h
    have h1 : (p + 1) * c.nodeLen = p * c.nodeLen + c.nodeLen := by ring
    omega

@[simp]
theorem Cache.val_length (c : Cache) (i : Nat) : (c.val i).length = c.valLen :=
  readBytes_length _ _ _

theorem getUint32_replicate_zero (k : Nat) : getUint32 (List.replicate k 0) = 0 := by
  rw [getUint32_eq_beVal, beVal_replicate_zero]

/-! ## Lemmas about `applyInsert` -/

@[simp]
theorem Cache.applyInsert_length (c : Cache) (p : Nat) (side : Bool) (v : List Nat) :
    (c.applyInsert p side v).length = c.length + 1 := by
  cases side <;> rfl

@[simp]
theorem Cache.applyInsert_valLen (c : Cache) (p : Nat) (side : Bool) (v : List Nat) :
    (c.applyInsert p side v).valLen = c.valLen := by
  cases side <;> rfl

@[simp]
theorem Cache.applyInsert_idxLen (c : Cache) (p : Nat) (side : Bool) (v : List Nat) :
    (c.applyInsert p side v).idxLen = c.idxLen := by
  cases side <;> rfl

@[simp]
theorem Cache.applyInsert_maxCap (c : Cache) (p : Nat) (side : Bool) (v : List Nat) :
    (c.applyInsert p side v).maxCap = c.maxCap := by
  cases side <;> rfl

@[simp]
theorem Cache.applyInsert_nodeLen (c : Cache) (p : Nat) (side : Bool) (v : List Nat) :
    (c.applyInsert p side v).nodeLen = c.nodeLen := by
  cases side <;> rfl

@[simp]
theorem Cache.applyInsert_memory_length (c : Cache) (p : Nat) (side : Bool) (v : List Nat) :
    (c.applyInsert p side v).memory.length = c.memory.length := by
  cases side <;> simp [Cache.applyInsert, Cache.setIdxL, Cache.setIdxR]

/-- The value of the appended node. -/
theorem Cache.val_applyInsert_new (c : Cache) {p : Nat} {side : Bool} {v : List Nat}
    (h4 : c.idxLen ≤ 4) (hv : v.length = c.valLen)
    (hb : (c.length + 1) * c.nodeLen ≤ c.memory.length) :
    (c.applyInsert p side v).val c.length = v := by
  have h4' : (c.setVal c.length v).idxLen ≤ 4 := h4
  unfold Cache.applyInsert
  cases side
  · show ((c.setVal c.length v).setIdxR p c.length).val c.length = v
    rw [Cache.val_setIdxR _ _ h4', c.val_setVal_self hv hb]
  · show ((c.setVal c.length v).setIdxL p c.length).val c.length = v
    rw [Cache.val_setIdxL _ _ h4', c.val_setVal_self hv hb]

/-- Values of all other slots are untouched. -/
theorem Cache.val_applyInsert_old (c : Cache) {p : Nat} {side : Bool} {v : List Nat}
    (j : Nat) (h4 : c.idxLen ≤ 4) (hv : v.length = c.valLen) (hj : j ≠ c.length) :
    (c.applyInsert p side v).val j = c.val j := by
  have h4' : (c.setVal c.length v).idxLen ≤ 4 := h4
  unfold Cache.applyInsert
  cases side
  · show ((c.setVal c.length v).setIdxR p c.length).val j = c.val j
    rw [Cache.val_setIdxR _ _ h4', c.val_setVal_ne hv hj]
  · show ((c.setVal c.length v).setIdxL p c.length).val j = c.val j
    rw [Cache.val_setIdxL _ _ h4', c.val_setVal_ne hv hj]

/-- The updated child pointer of the parent reads back as the new slot. -/
theorem Cache.idx_applyInsert_parent (c : Cache) {p : Nat} {side : Bool} {v : List Nat}
    (h4 : c.idxLen ≤ 4)
    (hb : (p + 1) * c.nodeLen ≤ c.memory.length)
    (hfit : c.length < 2 ^ (8 * c.idxLen)) :
    (if side then (c.applyInsert p side v).idxL p
     else (c.applyInsert p side v).idxR p) = c.length := by
  have h4' : (c.setVal c.length v).idxLen ≤ 4 := h4
  have hb' : (p + 1) * (c.setVal c.length v).nodeLen ≤ (c.setVal c.length v).memory.length := by
    simpa using hb
  unfold Cache.applyInsert
  cases side
  · show ((c.setVal c.length v).setIdxR p c.length).idxR p = c.length
    rw [Cache.idxR_setIdxR_self _ h4' hb']
    simp [Nat.mod_eq_of_lt hfit]
  · show ((c.setVal c.length v).setIdxL p c.length).idxL p = c.length
    rw [Cache.idxL_setIdxL_self _ h4' hb']
    simp [Nat.mod_eq_of_lt hfit]

/-- All child pointers other than the updated one are untouched. -/
theorem Cache.idx_applyInsert_other (c : Cache) {p : Nat} {side : Bool} {v : List Nat}
    (j : Nat) (h4 : c.idxLen ≤ 4) (hv : v.length = c.valLen) :
    ((side = true → j ≠ p → (c.applyInsert p side v).idxL j = c.idxL j) ∧
     (side = true → (c.applyInsert p side v).idxR j = c.idxR j)) ∧
    ((side = false → j ≠ p → (c.applyInsert p side v).idxR j = c.idxR j) ∧
     (side = false → (c.applyInsert p side v).idxL j = c.idxL j)) := by
  have h4' : (c.setVal c.length v).idxLen ≤ 4 := h4
  unfold Cache.applyInsert
  cases side
  · refine ⟨⟨fun h => by simp at h, fun h => by simp at h⟩, ⟨fun _ hj => ?_, fun _ => ?_⟩⟩
    · show ((c.setVal c.length v).setIdxR p c.length).idxR j = c.idxR j
      rw [Cache.idxR_setIdxR_ne _ _ h4' hj, c.idxR_setVal _ hv]
    · show ((c.setVal c.length v).setIdxR p c.length).idxL j = c.idxL j
      rw [Cache.idxL_setIdxR _ _ h4', c.idxL_setVal _ hv]
  · refine ⟨⟨fun _ hj => ?_, fun _ => ?_⟩, ⟨fun h => by simp at h, fun h => by simp at h⟩⟩
    · show ((c.setVal c.length v).setIdxL p c.length).idxL j = c.idxL j
      rw [Cache.idxL_setIdxL_ne _ _ h4' hj, c.idxL_setVal _ hv]
    · show ((c.setVal c.length v).setIdxL p c.length).idxR j = c.idxR j
      rw [Cache.idxR_setIdxL _ _ h4', c.idxR_setVal _ hv]

theorem getD_replicate_zero (n j : Nat) : (List.replicate n 0).getD j 0 = 0 := by
  rcases Nat.lt_or_ge j n with h | h
  · rw [List.getD_eq_getElem _ _ (by simpa using h)]
    simp
  · rw [List.getD_eq_default _ _ (by simpa using h)]

/-- Every arena byte from the start of the appended node's index fields on
is zero after `applyInsert`: the value write stops before them, the parent
pointer write lands strictly below (or, in the very first insertion, is a
write of zeros), and everything higher was zero already. -/
theorem Cache.byteAt_applyInsert (c : Cache) {p : Nat} {side : Bool} {v : List Nat} (k : Nat)
    (h4 : c.idxLen ≤ 4) (hv : v.length = c.valLen) (hp : p ≤ c.length)
    (hp0 : p = c.length → c.length = 0)
    (hzero : ∀ j, c.length * c.nodeLen ≤ j → j < c.memory.length → byteAt c.memory j = 0)
    (hk : c.length * c.nodeLen + c.valLen ≤ k) :
    byteAt (c.applyInsert p side v).memory k = 0 := by
  have hnl := c.nodeLen_eq
  have hplen : (putUint32 c.idxLen c.length).length = c.idxLen := putUint32_length h4 _
  have hwin : p < c.length → (p + 1) * c.nodeLen ≤ c.length * c.nodeLen :=
    fun h => window_le c.nodeLen h
  have hexp : (p + 1) * c.nodeLen = p * c.nodeLen + c.nodeLen := by ring
  unfold Cache.applyInsert
  cases side
  · show byteAt ((c.setVal c.length v).setIdxR p c.length).memory k = 0
    simp only [Cache.setIdxR_memory, Cache.setVal_memory, Cache.setVal_nodeLen,
      Cache.setVal_valLen, Cache.setVal_idxLen]
    rw [byteAt_writeBytes, byteAt_writeBytes]
    simp only [writeBytes_length, hplen, hv]
    split_ifs with h1 h2 h3
    · rcases Nat.lt_or_eq_of_le hp with hpL | hpE
      · exfalso
        have := hwin hpL
        omega
      · have hL0 : c.length = 0 := hp0 hpE
        rw [hL0, putUint32_zero h4, getD_replicate_zero]
    · exfalso
      omega
    · exact hzero k (by omega) h1
    · rfl
  · show byteAt ((c.setVal c.length v).setIdxL p c.length).memory k = 0
    simp only [Cache.setIdxL_memory, Cache.setVal_memory, Cache.setVal_nodeLen,
      Cache.setVal_valLen, Cache.setVal_idxLen]
    rw [byteAt_writeBytes, byteAt_writeBytes]
    simp only [writeBytes_length, hplen, hv]
    split_ifs with h1 h2 h3
    · rcases Nat.lt_or_eq_of_le hp with hpL | hpE
      · exfalso
        have := hwin hpL
        omega
      · have hL0 : c.length = 0 := hp0 hpE
        rw [hL0, putUint32_zero h4, getD_replicate_zero]
    · exfalso
      omega
    · exact hzero k (by omega) h1
    · rfl

/-- Both child pointers of the appended node read back as the sentinel. -/
theorem Cache.idx_applyInsert_new (c : Cache) {p : Nat} {side : Bool} {v : List Nat}
    (h4 : c.idxLen ≤ 4) (hv : v.length = c.valLen) (hp : p ≤ c.length)
    (hp0 : p = c.length → c.length = 0)
    (hzero : ∀ j, c.length * c.nodeLen ≤ j → j < c.memory.length → byteAt c.memory j = 0) :
    (c.applyInsert p side v).idxL c.length = 0 ∧
    (c.applyInsert p side v).idxR c.length = 0 := by
  have hall : ∀ k, c.length * c.nodeLen + c.valLen ≤ k →
      byteAt (c.applyInsert p side v).memory k = 0 :=
    fun k hk => c.byteAt_applyInsert k h4 hv hp hp0 hzero hk
  constructor
  · unfold Cache.idxL
    simp only [Cache.applyInsert_nodeLen, Cache.applyInsert_valLen, Cache.applyInsert_idxLen]
    rw [readBytes_zeros (fun k hk => hall k (by omega)), getUint32_replicate_zero]
  · unfold Cache.idxR
    simp only [Cache.applyInsert_nodeLen, Cache.applyInsert_valLen, Cache.applyInsert_idxLen]
    rw [readBytes_zeros (fun k hk => hall k (by omega)), getUint32_replicate_zero]

/-! ## Abstract BST lemmas -/

theorem BTree.tvals_tinsert_sub {v : List Nat} {s : Nat} :
    ∀ {t : BTree} {x : List Nat}, x ∈ (t.tinsert v s).tvals → x = v ∨ x ∈ t.tvals := by
  intro t
  induction t with
  | leaf =>
    intro x hx
    simp [BTree.tinsert, BTree.tvals] at hx
    exact Or.inl hx
  | node s' v' l r ihl ihr =>
    intro x hx
    unfold BTree.tinsert at hx
    rcases hc : bytesCompare v' v with hlt | heq | hgt <;> rw [hc] at hx
    · simp only [BTree.tvals, List.mem_cons, List.mem_append] at hx ⊢
      rcases hx with h | h | h
      · tauto
      · tauto
      · rcases ihr h with h' | h' <;> tauto
    · simp only [BTree.tvals, List.mem_cons, List.mem_append] at hx ⊢
      tauto
    · simp only [BTree.tvals, List.mem_cons, List.mem_append] at hx ⊢
      rcases hx with h | h | h
      · tauto
      · rcases ihl h with h' | h' <;> tauto
      · tauto

theorem BTree.tslots_tinsert_sub {v : List Nat} {s : Nat} :
    ∀ {t : BTree} {x : Nat}, x ∈ (t.tinsert v s).tslots → x = s ∨ x ∈ t.tslots := by
  intro t
  induction t with
  | leaf =>
    intro x hx
    simp [BTree.tinsert, BTree.tslots] at hx
    exact Or.inl hx
  | node s' v' l r ihl ihr =>
    intro x hx
    unfold BTree.tinsert at hx
    rcases hc : bytesCompare v' v with hlt | heq | hgt <;> rw [hc] at hx
    · simp only [BTree.tslots, List.mem_cons, List.mem_append] at hx ⊢
      rcases hx with h | h | h
      · tauto
      · tauto
      · rcases ihr h with h' | h' <;> tauto
    · simp only [BTree.tslots, List.mem_cons, List.mem_append] at hx ⊢
      tauto
    · simp only [BTree.tslots, List.mem_cons, List.mem_append] at hx ⊢
      rcases hx with h | h | h
      · tauto
      · rcases ihl h with h' | h' <;> tauto
      · tauto

theorem BTree.isBST_tinsert {v : List Nat} {s : Nat} :
    ∀ {t : BTree}, t.isBST = true → (t.tinsert v s).isBST = true := by
  intro t
  induction t with
  | leaf =>
    intro _
    simp [BTree.tinsert, BTree.isBST, BTree.tvals]
  | node s' v' l r ihl ihr =>
    intro hbst
    simp only [BTree.isBST, Bool.and_eq_true, List.all_eq_true, decide_eq_true_eq] at hbst
    obtain ⟨⟨⟨hl, hr⟩, hbl⟩, hbr⟩ := hbst
    unfold BTree.tinsert
    rcases hc : bytesCompare v' v with hlt | heq | hgt
    · simp only [BTree.isBST, Bool.and_eq_true, List.all_eq_true, decide_eq_true_eq]
      refine ⟨⟨⟨hl, ?_⟩, hbl⟩, ihr hbr⟩
      intro x hx
      rcases BTree.tvals_tinsert_sub hx with h | h
      · subst h
        exact hc
      · exact hr x h
    · simp only [BTree.isBST, Bool.and_eq_true, List.all_eq_true, decide_eq_true_eq]
      exact ⟨⟨⟨hl, hr⟩, hbl⟩, hbr⟩
    · simp only [BTree.isBST, Bool.and_eq_true, List.all_eq_true, decide_eq_true_eq]
      refine ⟨⟨⟨?_, hr⟩, ihl hbl⟩, hbr⟩
      intro x hx
      rcases BTree.tvals_tinsert_sub hx with h | h
      · subst h
        exact bytesCompare_gt_iff_lt.mp hc
      · exact hl x h

theorem BTree.tslots_length_tinsert {v : List Nat} {s : Nat} :
    ∀ {t : BTree}, v ∉ t.tvals → (t.tinsert v s).tslots.length = t.tslots.length + 1 := by
  intro t
  induction t with
  | leaf =>
    intro _
    simp [BTree.tinsert, BTree.tslots]
  | node s' v' l r ihl ihr =>
    intro hnotin
    simp only [BTree.tvals, List.mem_cons, List.mem_append] at hnotin
    push_neg at hnotin
    obtain ⟨hne, hnl, hnr⟩ := hnotin
    unfold BTree.tinsert
    rcases hc : bytesCompare v' v with hlt | heq | hgt
    · simp only [BTree.tslots, List.length_cons, List.length_append]
      rw [ihr hnr]
      omega
    · exact absurd (bytesCompare_eq_iff.mp hc).symm hne
    · simp only [BTree.tslots, List.length_cons, List.length_append]
      rw [ihl hnl]
      omega

theorem BTree.nodup_tvals_of_isBST : ∀ {t : BTree}, t.isBST = true → t.tvals.Nodup := by
  intro t
  induction t with
  | leaf => intro _; simp [BTree.tvals]
  | node s' v' l r ihl ihr =>
    intro hbst
    simp only [BTree.isBST, Bool.and_eq_true, List.all_eq_true, decide_eq_true_eq] at hbst
    obtain ⟨⟨⟨hl, hr⟩, hbl⟩, hbr⟩ := hbst
    simp only [BTree.tvals, List.nodup_cons, List.nodup_append, List.mem_append]
    have hdisj : l.tvals.Disjoint r.tvals := by
      intro x hx hy
      have h1 := hl x hx
      have h2 := hr x hy
      have h3 := bytesCompare_gt_iff_lt.mpr h2
      rw [h1] at h3
      simp at h3
    refine ⟨?_, ihl hbl, ihr hbr, hdisj⟩
    intro h
    rcases h with h | h
    · have := hl v' h
      rw [bytesCompare_eq_iff.mpr rfl] at this
      simp at this
    · have := hr v' h
      rw [bytesCompare_eq_iff.mpr rfl] at this
      simp at this

theorem BTree.tslots_length_eq_tvals_length :
    ∀ t : BTree, t.tslots.length = t.tvals.length := by
  intro t
  induction t with
  | leaf => rfl
  | node s' v' l r ihl ihr =>
    simp only [BTree.tslots, BTree.tvals, List.length_cons, List.length_append, ihl, ihr]

/-! ## The descent as `findSpot`, and reading trees off the arena -/

/-- The recursive `insert` either leaves the cache unchanged (value found,
or fuel exhausted) or performs exactly the `applyInsert` mutation at the
spot the descent found. -/
theorem Cache.insertAux_eq_spot (c : Cache) :
    ∀ fuel i v, c.insertAux fuel i v =
      match c.findSpot fuel i v with
      | none => c
      | some (p, s) => c.applyInsert p s v := by
  intro fuel
  induction fuel with
  | zero => intro i v; rfl
  | succ f ih =>
    intro i v
    rcases hc : bytesCompare (c.val i) v with _ | _ | _ <;>
      simp only [Cache.insertAux, Cache.findSpot, Cache.look, hc]
    · have h1 : ¬ ((c.idxR i : Int) = -1) := by omega
      rw [if_neg h1]
      by_cases h0 : c.idxR i = 0
      · rw [if_pos (by simpa using h0), if_pos h0]
        rfl
      · rw [if_neg (by simpa using h0), if_neg h0]
        have h2 : ((c.idxR i : Int)).toNat = c.idxR i := by omega
        rw [h2]
        exact ih (c.idxR i) v
    · rfl
    · have h1 : ¬ ((c.idxL i : Int) = -1) := by omega
      rw [if_neg h1]
      by_cases h0 : c.idxL i = 0
      · rw [if_pos (by simpa using h0), if_pos h0]
        rfl
      · rw [if_neg (by simpa using h0), if_neg h0]
        have h2 : ((c.idxL i : Int)).toNat = c.idxL i := by omega
        rw [h2]
        exact ih (c.idxL i) v

/-- The spot the descent finds is an occupied slot at or below the start. -/
theorem Cache.findSpot_lt (c : Cache) (hidx : c.idxOK) :
    ∀ fuel i v p s, i < c.length → c.findSpot fuel i v = some (p, s) →
      i ≤ p ∧ p < c.length := by
  intro fuel
  induction fuel with
  | zero => intro i v p s hi h; simp [Cache.findSpot] at h
  | succ f ih =>
    intro i v p s hi h
    rw [Cache.findSpot] at h
    rcases hc : bytesCompare (c.val i) v with _ | _ | _ <;> rw [hc] at h <;> simp only at h
    · by_cases h0 : c.idxR i = 0
      · rw [if_pos h0] at h
        simp only [Option.some.injEq, Prod.mk.injEq] at h
        obtain ⟨rfl, rfl⟩ := h
        exact ⟨Nat.le_refl _, hi⟩
      · rw [if_neg h0] at h
        have hj := (hidx i hi).2
        rcases hj with hj | hj
        · exact absurd hj h0
        · have := ih (c.idxR i) v p s hj.2 h
          omega
    · exact absurd h (by simp)
    · by_cases h0 : c.idxL i = 0
      · rw [if_pos h0] at h
        simp only [Option.some.injEq, Prod.mk.injEq] at h
        obtain ⟨rfl, rfl⟩ := h
        exact ⟨Nat.le_refl _, hi⟩
      · rw [if_neg h0] at h
        have hj := (hidx i hi).1
        rcases hj with hj | hj
        · exact absurd hj h0
        · have := ih (c.idxL i) v p s hj.2 h
          omega

/-- With forward-pointing children, the tree read off the arena does not
depend on the fuel once the fuel covers the remaining slots. -/
theorem Cache.toTree_stable (c : Cache) (hidx : c.idxOK) :
    ∀ d f₁ f₂ i, c.length - i ≤ d → i < c.length →
      c.length - i ≤ f₁ → c.length - i ≤ f₂ → c.toTree f₁ i = c.toTree f₂ i := by
  intro d
  induction d with
  | zero => intro f₁ f₂ i hd hi _ _; omega
  | succ d ih =>
    intro f₁ f₂ i hd hi h1 h2
    have hi1 : 1 ≤ c.length - i := by omega
    cases f₁ with
    | zero => omega
    | succ a =>
      cases f₂ with
      | zero => omega
      | succ b =>
        rw [Cache.toTree, Cache.toTree]
        congr 1
        · by_cases h0 : c.idxL i = 0
          · simp [h0]
          · rw [if_neg h0, if_neg h0]
            have hj := (hidx i hi).1
            rcases hj with hj | hj
            · exact absurd hj h0
            · exact ih a b (c.idxL i) (by omega) hj.2 (by omega) (by omega)
        · by_cases h0 : c.idxR i = 0
          · simp [h0]
          · rw [if_neg h0, if_neg h0]
            have hj := (hidx i hi).2
            rcases hj with hj | hj
            · exact absurd hj h0
            · exact ih a b (c.idxR i) (by omega) hj.2 (by omega) (by omega)

/-- Slots appearing in a subtree lie between its root and `length`. -/
theorem Cache.tslots_toTree_bounds (c : Cache) (hidx : c.idxOK) :
    ∀ d f i, c.length - i ≤ d → i < c.length →
      ∀ s ∈ (c.toTree f i).tslots, i ≤ s ∧ s < c.length := by
  intro d
  induction d with
  | zero => intro f i hd hi; omega
  | succ d ih =>
    intro f i hd hi s hs
    cases f with
    | zero => simp [Cache.toTree, BTree.tslots] at hs
    | succ f =>
      rw [Cache.toTree] at hs
      simp only [BTree.tslots, List.mem_cons, List.mem_append] at hs
      rcases hs with rfl | hs | hs
      · exact ⟨Nat.le_refl _, hi⟩
      · by_cases h0 : c.idxL i = 0
        · rw [if_pos h0] at hs
          simp [BTree.tslots] at hs
        · rw [if_neg h0] at hs
          have hj := (hidx i hi).1
          rcases hj with hj | hj
          · exact absurd hj h0
          · have := ih f (c.idxL i) (by omega) hj.2 s hs
            omega
      · by_cases h0 : c.idxR i = 0
        · rw [if_pos h0] at hs
          simp [BTree.tslots] at hs
        · rw [if_neg h0] at hs
          have hj := (hidx i hi).2
          rcases hj with hj | hj
          · exact absurd hj h0
          · have := ih f (c.idxR i) (by omega) hj.2 s hs
            omega

/-- Two caches agreeing (values and child pointers) on every slot of a
subtree read off the first produce the same subtree. -/
theorem Cache.toTree_congr {c c' : Cache} :
    ∀ f i, (∀ s ∈ (c.toTree f i).tslots,
        c'.val s = c.val s ∧ c'.idxL s = c.idxL s ∧ c'.idxR s = c.idxR s) →
      c'.toTree f i = c.toTree f i := by
  intro f
  induction f with
  | zero => intro i _; rfl
  | succ f ih =>
    intro i h
    have hhead : i ∈ (c.toTree (f + 1) i).tslots := by
      rw [Cache.toTree]
      simp [BTree.tslots]
    obtain ⟨hv, hl, hr⟩ := h i hhead
    rw [Cache.toTree, Cache.toTree, hv, hl, hr]
    congr 1
    · by_cases h0 : c.idxL i = 0
      · simp [h0]
      · rw [if_neg h0, if_neg h0]
        apply ih
        intro s hs
        apply h
        rw [Cache.toTree]
        simp only [BTree.tslots, List.mem_cons, List.mem_append]
        right
        left
        rwa [if_neg h0]
    · by_cases h0 : c.idxR i = 0
      · simp [h0]
      · rw [if_neg h0, if_neg h0]
        apply ih
        intro s hs
        apply h
        rw [Cache.toTree]
        simp only [BTree.tslots, List.mem_cons, List.mem_append]
        right
        right
        rwa [if_neg h0]

/-- The value list of a read-off tree is the slot list under `c.val`. -/
theorem Cache.tvals_toTree (c : Cache) :
    ∀ f i, (c.toTree f i).tvals = (c.toTree f i).tslots.map c.val := by
  intro f
  induction f with
  | zero => intro i; rfl
  | succ f ih =>
    intro i
    rw [Cache.toTree]
    simp only [BTree.tvals, BTree.tslots, List.map_cons, List.map_append]
    congr 2
    · by_cases h0 : c.idxL i = 0
      · simp [h0, BTree.tvals, BTree.tslots]
      · rw [if_neg h0]
        exact ih (c.idxL i)
    · by_cases h0 : c.idxR i = 0
      · simp [h0, BTree.tvals, BTree.tslots]
      · rw [if_neg h0]
        exact ih (c.idxR i)

/-- The spot the descent finds lies in the subtree it started from. -/
theorem Cache.findSpot_mem (c : Cache) (hidx : c.idxOK) :
    ∀ fuel i v p s, i < c.length → c.findSpot fuel i v = some (p, s) →
      ∀ f, c.length - i ≤ f → p ∈ (c.toTree f i).tslots := by
  intro fuel
  induction fuel with
  | zero => intro i v p s hi h; simp [Cache.findSpot] at h
  | succ fl ih =>
    intro i v p s hi h f hf
    have hf1 : 1 ≤ c.length - i := by omega
    cases f with
    | zero => omega
    | succ g =>
      rw [Cache.findSpot] at h
      rcases hc : bytesCompare (c.val i) v with _ | _ | _ <;> rw [hc] at h <;> simp only at h
      · by_cases h0 : c.idxR i = 0
        · rw [if_pos h0] at h
          simp only [Option.some.injEq, Prod.mk.injEq] at h
          obtain ⟨rfl, rfl⟩ := h
          rw [Cache.toTree]
          simp [BTree.tslots]
        · rw [if_neg h0] at h
          have hj := (hidx i hi).2
          rcases hj with hj | hj
          · exact absurd hj h0
          · have hmem := ih (c.idxR i) v p s hj.2 h g (by omega)
            rw [Cache.toTree]
            simp only [BTree.tslots, List.mem_cons, List.mem_append]
            right
            right
            rwa [if_neg h0]
      · exact absurd h (by simp)
      · by_cases h0 : c.idxL i = 0
        · rw [if_pos h0] at h
          simp only [Option.some.injEq, Prod.mk.injEq] at h
          obtain ⟨rfl, rfl⟩ := h
          rw [Cache.toTree]
          simp [BTree.tslots]
        · rw [if_neg h0] at h
          have hj := (hidx i hi).1
          rcases hj with hj | hj
          · exact absurd hj h0
          · have hmem := ih (c.idxL i) v p s hj.2 h g (by omega)
            rw [Cache.toTree]
            simp only [BTree.tslots, List.mem_cons, List.mem_append]
            right
            left
            rwa [if_neg h0]

/-- If the descent ends at an absent child, the value is not in the
subtree (the BST order rules it out of every skipped branch). -/
theorem Cache.findSpot_not_found (c : Cache) (hidx : c.idxOK) :
    ∀ fuel i v p s, i < c.length →
      (c.toTree (c.length - i) i).isBST = true →
      c.findSpot fuel i v = some (p, s) →
      v ∉ (c.toTree (c.length - i) i).tvals := by
  intro fuel
  induction fuel with
  | zero => intro i v p s hi _ h; simp [Cache.findSpot] at h
  | succ fl ih =>
    intro i v p s hi hbst h hmem
    obtain ⟨g, hg⟩ : ∃ g, c.length - i = g + 1 := ⟨c.length - i - 1, by omega⟩
    rw [hg, Cache.toTree] at hbst hmem
    simp only [BTree.isBST, Bool.and_eq_true, List.all_eq_true, decide_eq_true_eq] at hbst
    obtain ⟨⟨⟨hlb, hrb⟩, hbl⟩, hbr⟩ := hbst
    simp only [BTree.tvals, List.mem_cons, List.mem_append] at hmem
    rw [Cache.findSpot] at h
    rcases hc : bytesCompare (c.val i) v with _ | _ | _ <;> rw [hc] at h <;> simp only at h
    · -- c.val i < v: the descent went right
      rcases hmem with heqv | hmem | hmem
      · rw [bytesCompare_eq_iff.mpr heqv.symm] at hc
        cases hc
      · have h1 := hlb v hmem
        have h2 := bytesCompare_gt_iff_lt.mpr h1
        rw [hc] at h2
        cases h2
      · by_cases h0 : c.idxR i = 0
        · rw [if_pos h0] at hmem
          simp [BTree.tvals] at hmem
        · rw [if_neg h0] at h hmem hbr
          have hj := (hidx i hi).2
          rcases hj with hj | hj
          · exact absurd hj h0
          · have hst := c.toTree_stable hidx c.length g (c.length - c.idxR i) (c.idxR i)
              (by omega) hj.2 (by omega) (by omega)
            rw [hst] at hbr hmem
            exact ih (c.idxR i) v p s hj.2 hbr h hmem
    · exact absurd h (by simp)
    · -- c.val i > v: the descent went left
      rcases hmem with heqv | hmem | hmem
      · rw [bytesCompare_eq_iff.mpr heqv.symm] at hc
        cases hc
      · by_cases h0 : c.idxL i = 0
        · rw [if_pos h0] at hmem
          simp [BTree.tvals] at hmem
        · rw [if_neg h0] at h hmem hbl
          have hj := (hidx i hi).1
          rcases hj with hj | hj
          · exact absurd hj h0
          · have hst := c.toTree_stable hidx c.length g (c.length - c.idxL i) (c.idxL i)
              (by omega) hj.2 (by omega) (by omega)
            rw [hst] at hbl hmem
            exact ih (c.idxL i) v p s hj.2 hbl h hmem
      · have h1 := hrb v hmem
        rw [h1] at hc
        cases hc

/-- The appended node and the redirected parent pointer keep all child
indices forward-pointing and inside the (grown) occupied prefix. -/
theorem Cache.applyInsert_idxOK (c : Cache) {p : Nat} {side : Bool} {v : List Nat}
    (hidx : c.idxOK) (h4 : c.idxLen ≤ 4) (hv : v.length = c.valLen)
    (hp : p < c.length ∨ (p = 0 ∧ c.length = 0))
    (hb : (p + 1) * c.nodeLen ≤ c.memory.length)
    (hfit : c.length < 2 ^ (8 * c.idxLen))
    (hzero : ∀ j, c.length * c.nodeLen ≤ j → j < c.memory.length → byteAt c.memory j = 0) :
    (c.applyInsert p side v).idxOK := by
  have hple : p ≤ c.length := by omega
  have hp0 : p = c.length → c.length = 0 := by omega
  have hnew := @Cache.idx_applyInsert_new c p side v h4 hv hple hp0 hzero
  have hparent := @Cache.idx_applyInsert_parent c p side v h4 hb hfit
  have hlen' := @Cache.applyInsert_length c p side v
  intro t ht
  rw [Cache.applyInsert_length] at ht
  by_cases htL : t = c.length
  · subst htL
    exact ⟨Or.inl hnew.1, Or.inl hnew.2⟩
  · have htlt : t < c.length := by omega
    have hpL : p < c.length := by omega
    have hother := @Cache.idx_applyInsert_other c p side v t h4 hv
    cases side
    · -- side = false: the right pointer of `p` is redirected
      have hLeq : (c.applyInsert p false v).idxL t = c.idxL t := hother.2.2 rfl
      constructor
      · rw [hLeq]
        rcases (hidx t htlt).1 with h | h
        · exact Or.inl h
        · exact Or.inr ⟨h.1, by omega⟩
      · by_cases htp : t = p
        · subst htp
          have : (c.applyInsert t false v).idxR t = c.length := by simpa using hparent
          rw [this]
          exact Or.inr ⟨htlt, by omega⟩
        · rw [hother.2.1 rfl htp]
          rcases (hidx t htlt).2 with h | h
          · exact Or.inl h
          · exact Or.inr ⟨h.1, by omega⟩
    · -- side = true: the left pointer of `p` is redirected
      have hReq : (c.applyInsert p true v).idxR t = c.idxR t := hother.1.2 rfl
      constructor
      · by_cases htp : t = p
        · subst htp
          have : (c.applyInsert t true v).idxL t = c.length := by simpa using hparent
          rw [this]
          exact Or.inr ⟨htlt, by omega⟩
        · rw [hother.1.1 rfl htp]
          rcases (hidx t htlt).1 with h | h
          · exact Or.inl h
          · exact Or.inr ⟨h.1, by omega⟩
      · rw [hReq]
        rcases (hidx t htlt).2 with h | h
        · exact Or.inl h
        · exact Or.inr ⟨h.1, by omega⟩

/-- Commutation: performing the concrete mutation at the spot the descent
found turns the read-off subtree into exactly the abstract BST insertion
of `v` with slot number `length`. -/
theorem Cache.toTree_applyInsert (c : Cache) {v : List Nat} {p : Nat} {s : Bool}
    (hidx : c.idxOK) (h4 : c.idxLen ≤ 4) (hv : v.length = c.valLen)
    (hsz : c.memory.length = c.maxCap * c.nodeLen)
    (hL : c.length < c.maxCap)
    (hcap : c.maxCap ≤ 2 ^ (8 * c.idxLen))
    (hzero : ∀ j, c.length * c.nodeLen ≤ j → j < c.memory.length → byteAt c.memory j = 0) :
    ∀ fuel i, i < c.length →
      (c.toTree (c.length - i) i).tslots.Nodup →
      c.findSpot fuel i v = some (p, s) →
      (c.applyInsert p s v).toTree (c.length + 1 - i) i
        = (c.toTree (c.length - i) i).tinsert v c.length := by
  have hfit : c.length < 2 ^ (8 * c.idxLen) := Nat.lt_of_lt_of_le hL hcap
  have hLbnd : (c.length + 1) * c.nodeLen ≤ c.memory.length := by
    rw [hsz]
    exact Nat.mul_le_mul_right _ (by omega)
  intro fuel
  induction fuel with
  | zero => intro i hi _ h; simp [Cache.findSpot] at h
  | succ fl ih =>
    intro i hi hnd h
    have hpb := c.findSpot_lt hidx (fl + 1) i v p s hi h
    have hpL : p < c.length := hpb.2
    have hpbnd : (p + 1) * c.nodeLen ≤ c.memory.length := by
      rw [hsz]
      exact Nat.mul_le_mul_right _ (by omega)
    have hidx' := @Cache.applyInsert_idxOK c p s v hidx h4 hv (Or.inl hpL) hpbnd hfit hzero
    have hlen' := @Cache.applyInsert_length c p s v
    have idx_at : ∀ t, t ≠ p →
        (c.applyInsert p s v).idxL t = c.idxL t ∧
        (c.applyInsert p s v).idxR t = c.idxR t := by
      intro t htp
      have ho := @Cache.idx_applyInsert_other c p s v t h4 hv
      cases s
      · exact ⟨ho.2.2 rfl, ho.2.1 rfl htp⟩
      · exact ⟨ho.1.1 rfl htp, ho.1.2 rfl⟩
    have frame : ∀ f j, j < c.length → (∀ t ∈ (c.toTree f j).tslots, t ≠ p) →
        (c.applyInsert p s v).toTree f j = c.toTree f j := by
      intro f j hjL hnp
      apply Cache.toTree_congr
      intro t ht
      have hbnds := c.tslots_toTree_bounds hidx c.length f j (by omega) hjL t ht
      exact ⟨c.val_applyInsert_old t h4 hv (by omega),
        (idx_at t (hnp t ht)).1, (idx_at t (hnp t ht)).2⟩
    have newsub : ∀ f, (c.applyInsert p s v).toTree (f + 1) c.length
        = BTree.node c.length v BTree.leaf BTree.leaf := by
      intro f
      have hnew := @Cache.idx_applyInsert_new c p s v h4 hv (by omega)
        (fun hh => absurd hh (by omega)) hzero
      rw [Cache.toTree, hnew.1, hnew.2, c.val_applyInsert_new h4 hv hLbnd]
      simp
    obtain ⟨g, hg⟩ : ∃ g, c.length - i = g + 1 := ⟨c.length - i - 1, by omega⟩
    have hg2 : c.length + 1 - i = g + 2 := by omega
    have hLHS : (c.applyInsert p s v).toTree (c.length + 1 - i) i
        = BTree.node i ((c.applyInsert p s v).val i)
            (if (c.applyInsert p s v).idxL i = 0 then BTree.leaf
             else (c.applyInsert p s v).toTree (g + 1) ((c.applyInsert p s v).idxL i))
            (if (c.applyInsert p s v).idxR i = 0 then BTree.leaf
             else (c.applyInsert p s v).toTree (g + 1) ((c.applyInsert p s v).idxR i)) := by
      rw [hg2, Cache.toTree]
    have hRHS : c.toTree (c.length - i) i
        = BTree.node i (c.val i)
            (if c.idxL i = 0 then BTree.leaf else c.toTree g (c.idxL i))
            (if c.idxR i = 0 then BTree.leaf else c.toTree g (c.idxR i)) := by
      rw [hg, Cache.toTree]
    have hndp : (BTree.node i (c.val i)
        (if c.idxL i = 0 then BTree.leaf else c.toTree g (c.idxL i))
        (if c.idxR i = 0 then BTree.leaf else c.toTree g (c.idxR i))).tslots.Nodup := by
      rw [← hRHS]
      exact hnd
    simp only [BTree.tslots, List.nodup_cons, List.nodup_append, List.mem_cons,
      List.mem_append] at hndp
    have hvali : (c.applyInsert p s v).val i = c.val i :=
      c.val_applyInsert_old i h4 hv (by omega)
    rw [hLHS, hRHS]
    rw [Cache.findSpot] at h
    rcases hc : bytesCompare (c.val i) v with _ | _ | _ <;> rw [hc] at h <;> simp only at h
    · -- c.val i < v: descend right
      unfold BTree.tinsert
      rw [hc]
      by_cases h0 : c.idxR i = 0
      · rw [if_pos h0] at h
        simp only [Option.some.injEq, Prod.mk.injEq] at h
        obtain ⟨rfl, rfl⟩ := h
        have hpar : (c.applyInsert i false v).idxR i = c.length := by
          simpa using @Cache.idx_applyInsert_parent c i false v h4 hpbnd hfit
        have hLp : (c.applyInsert i false v).idxL i = c.idxL i :=
          (@Cache.idx_applyInsert_other c i false v i h4 hv).2.2 rfl
        rw [hvali, hpar, hLp, if_neg (by omega : ¬ (c.length = 0)), if_pos h0, newsub g]
        congr 1
        by_cases h0L : c.idxL i = 0
        · rw [if_pos h0L, if_pos h0L]
        · rw [if_neg h0L, if_neg h0L]
          have hzl : i < c.idxL i ∧ c.idxL i < c.length := by
            rcases (hidx i hi).1 with hz | hz
            · exact absurd hz h0L
            · exact hz
          have hnp : ∀ t ∈ (c.toTree (g + 1) (c.idxL i)).tslots, t ≠ i := by
            intro t ht
            have := c.tslots_toTree_bounds hidx c.length (g + 1) (c.idxL i)
              (by omega) hzl.2 t ht
            omega
          rw [frame (g + 1) (c.idxL i) hzl.2 hnp]
          exact c.toTree_stable hidx c.length (g + 1) g (c.idxL i) (by omega) hzl.2
            (by omega) (by omega)
      · rw [if_neg h0] at h
        have hj := (hidx i hi).2
        rcases hj with hj | hj
        · exact absurd hj h0
        · obtain ⟨hij, hjL⟩ := hj
          have hmemp : p ∈ (c.toTree g (c.idxR i)).tslots :=
            c.findSpot_mem hidx fl (c.idxR i) v p s hjL h g (by omega)
          have hstc : c.toTree g (c.idxR i)
              = c.toTree (c.length - c.idxR i) (c.idxR i) :=
            c.toTree_stable hidx c.length g (c.length - c.idxR i) (c.idxR i)
              (by omega) hjL (by omega) (by omega)
          have hndsub : (c.toTree (c.length - c.idxR i) (c.idxR i)).tslots.Nodup := by
            have hndr : (c.toTree g (c.idxR i)).tslots.Nodup := by
              rw [if_neg h0] at hndp
              exact hndp.2.2.1
            rwa [hstc] at hndr
          have hihr := ih (c.idxR i) hjL hndsub h
          have hpgt : c.idxR i ≤ p :=
            (c.tslots_toTree_bounds hidx c.length g (c.idxR i) (by omega) hjL p hmemp).1
          have hii := idx_at i (by omega)
          rw [hvali, hii.1, hii.2]
          congr 1
          · -- left subtree unchanged
            by_cases h0L : c.idxL i = 0
            · rw [if_pos h0L, if_pos h0L]
            · rw [if_neg h0L, if_neg h0L]
              have hzl : i < c.idxL i ∧ c.idxL i < c.length := by
                rcases (hidx i hi).1 with hz | hz
                · exact absurd hz h0L
                · exact hz
              have hts : c.toTree (g + 1) (c.idxL i) = c.toTree g (c.idxL i) :=
                c.toTree_stable hidx c.length (g + 1) g (c.idxL i) (by omega) hzl.2
                  (by omega) (by omega)
              have hnp : ∀ t ∈ (c.toTree (g + 1) (c.idxL i)).tslots, t ≠ p := by
                intro t ht hteq
                rw [hts] at ht
                subst hteq
                rw [if_neg h0L, if_neg h0] at hndp
                exact hndp.2.2.2 ht hmemp
              rw [frame (g + 1) (c.idxL i) hzl.2 hnp, hts]
          · -- right subtree: the induction hypothesis
            rw [if_neg h0, if_neg h0]
            have hstc' : (c.applyInsert p s v).toTree (g + 1) (c.idxR i)
                = (c.applyInsert p s v).toTree (c.length + 1 - c.idxR i) (c.idxR i) := by
              apply Cache.toTree_stable _ hidx' (c.length + 1)
              all_goals rw [hlen']
              all_goals omega
            rw [hstc', hstc, hihr]
    · exact absurd h (by simp)
    · -- c.val i > v: descend left
      unfold BTree.tinsert
      rw [hc]
      by_cases h0 : c.idxL i = 0
      · rw [if_pos h0] at h
        simp only [Option.some.injEq, Prod.mk.injEq] at h
        obtain ⟨rfl, rfl⟩ := h
        have hpar : (c.applyInsert i true v).idxL i = c.length := by
          simpa using @Cache.idx_applyInsert_parent c i true v h4 hpbnd hfit
        have hRp : (c.applyInsert i true v).idxR i = c.idxR i :=
          (@Cache.idx_applyInsert_other c i true v i h4 hv).1.2 rfl
        rw [hvali, hpar, hRp, if_neg (by omega : ¬ (c.length = 0)), if_pos h0, newsub g]
        congr 1
        by_cases h0R : c.idxR i = 0
        · rw [if_pos h0R, if_pos h0R]
        · rw [if_neg h0R, if_neg h0R]
          have hzr : i < c.idxR i ∧ c.idxR i < c.length := by
            rcases (hidx i hi).2 with hz | hz
            · exact absurd hz h0R
            · exact hz
          have hnp : ∀ t ∈ (c.toTree (g + 1) (c.idxR i)).tslots, t ≠ i := by
            intro t ht
            have := c.tslots_toTree_bounds hidx c.length (g + 1) (c.idxR i)
              (by omega) hzr.2 t ht
            omega
          rw [frame (g + 1) (c.idxR i) hzr.2 hnp]
          exact c.toTree_stable hidx c.length (g + 1) g (c.idxR i) (by omega) hzr.2
            (by omega) (by omega)
      · rw [if_neg h0] at h
        have hj := (hidx i hi).1
        rcases hj with hj | hj
        · exact absurd hj h0
        · obtain ⟨hij, hjL⟩ := hj
          have hmemp : p ∈ (c.toTree g (c.idxL i)).tslots :=
            c.findSpot_mem hidx fl (c.idxL i) v p s hjL h g (by omega)
          have hstc : c.toTree g (c.idxL i)
              = c.toTree (c.length - c.idxL i) (c.idxL i) :=
            c.toTree_stable hidx c.length g (c.length - c.idxL i) (c.idxL i)
              (by omega) hjL (by omega) (by omega)
          have hndsub : (c.toTree (c.length - c.idxL i) (c.idxL i)).tslots.Nodup := by
            have hndl : (c.toTree g (c.idxL i)).tslots.Nodup := by
              rw [if_neg h0] at hndp
              exact hndp.2.1
            rwa [hstc] at hndl
          have hihl := ih (c.idxL i) hjL hndsub h
          have hpgt : c.idxL i ≤ p :=
            (c.tslots_toTree_bounds hidx c.length g (c.idxL i) (by omega) hjL p hmemp).1
          have hii := idx_at i (by omega)
          rw [hvali, hii.1, hii.2]
          congr 1
          · -- left subtree: the induction hypothesis
            rw [if_neg h0, if_neg h0]
            have hstc' : (c.applyInsert p s v).toTree (g + 1) (c.idxL i)
                = (c.applyInsert p s v).toTree (c.length + 1 - c.idxL i) (c.idxL i) := by
              apply Cache.toTree_stable _ hidx' (c.length + 1)
              all_goals rw [hlen']
              all_goals omega
            rw [hstc', hstc, hihl]
          · -- right subtree unchanged
            by_cases h0R : c.idxR i = 0
            · rw [if_pos h0R, if_pos h0R]
            · rw [if_neg h0R, if_neg h0R]
              have hzr : i < c.idxR i ∧ c.idxR i < c.length := by
                rcases (hidx i hi).2 with hz | hz
                · exact absurd hz h0R
                · exact hz
              have hts : c.toTree (g + 1) (c.idxR i) = c.toTree g (c.idxR i) :=
                c.toTree_stable hidx c.length (g + 1) g (c.idxR i) (by omega) hzr.2
                  (by omega) (by omega)
              have hnp : ∀ t ∈ (c.toTree (g + 1) (c.idxR i)).tslots, t ≠ p := by
                intro t ht hteq
                rw [hts] at ht
                subst hteq
                rw [if_neg h0, if_neg h0R] at hndp
                exact hndp.2.2.2 hmemp ht
              rw [frame (g + 1) (c.idxR i) hzr.2 hnp, hts]

/-! ## Invariant preservation -/

theorem Cache.val_zero_of_empty (c : Cache)
    (hzero : ∀ k, c.length * c.nodeLen ≤ k → k < c.memory.length → byteAt c.memory k = 0)
    (hL0 : c.length = 0) : c.val 0 = List.replicate c.valLen 0 := by
  have h00 : c.length * c.nodeLen = 0 := by rw [hL0]; simp
  unfold Cache.val
  apply readBytes_zeros
  intro k _
  rcases Nat.lt_or_ge k c.memory.length with hk | hk
  · exact hzero k (by omega) hk
  · exact byteAt_oob hk

theorem Cache.idxR_zero_of_empty (c : Cache)
    (hzero : ∀ k, c.length * c.nodeLen ≤ k → k < c.memory.length → byteAt c.memory k = 0)
    (hL0 : c.length = 0) : c.idxR 0 = 0 := by
  have h00 : c.length * c.nodeLen = 0 := by rw [hL0]; simp
  unfold Cache.idxR
  rw [readBytes_zeros, getUint32_replicate_zero]
  intro k _
  rcases Nat.lt_or_ge k c.memory.length with hk | hk
  · exact hzero k (by omega) hk
  · exact byteAt_oob hk

/-- One internal insert (with the fuel the exported methods use) preserves
the invariant and grows `length` by at most one. -/
theorem Cache.insertAux_inv (c : Cache) {v : List Nat}
    (hInv : CacheInv c) (hlen : c.length < c.maxCap) (hv : v.length = c.valLen) :
    CacheInv (c.insertAux (c.maxCap + 1) 0 v) ∧
    c.length ≤ (c.insertAux (c.maxCap + 1) 0 v).length ∧
    (c.insertAux (c.maxCap + 1) 0 v).length ≤ c.length + 1 ∧
    (c.insertAux (c.maxCap + 1) 0 v).maxCap = c.maxCap ∧
    (c.insertAux (c.maxCap + 1) 0 v).valLen = c.valLen := by
  obtain ⟨hsz, hle, h4, hcap, hzero, hidx, htree⟩ := hInv
  rcases hfs : c.findSpot (c.maxCap + 1) 0 v with _ | ps
  · have heq : c.insertAux (c.maxCap + 1) 0 v = c := by
      rw [c.insertAux_eq_spot, hfs]
    rw [heq]
    exact ⟨⟨hsz, hle, h4, hcap, hzero, hidx, htree⟩, by omega, by omega, rfl, rfl⟩
  · obtain ⟨p, s⟩ := ps
    have heq : c.insertAux (c.maxCap + 1) 0 v = c.applyInsert p s v := by
      rw [c.insertAux_eq_spot, hfs]
    rw [heq]
    have hbnd1 : (c.length + 1) * c.nodeLen ≤ c.memory.length := by
      rw [hsz]
      exact Nat.mul_le_mul_right _ (by omega)
    have hfit : c.length < 2 ^ (8 * c.idxLen) := Nat.lt_of_lt_of_le hlen hcap
    rcases Nat.eq_zero_or_pos c.length with hL0 | hL1
    · -- first insertion: the descent stops at the zeroed root slot
      have hval0 := c.val_zero_of_empty hzero hL0
      have hidr0 := c.idxR_zero_of_empty hzero hL0
      have hps : p = 0 ∧ s = false := by
        rw [Cache.findSpot, hval0] at hfs
        rcases hcmp : bytesCompare (List.replicate c.valLen 0) v with _ | _ | _ <;>
          rw [hcmp] at hfs <;> simp only at hfs
        · rw [if_pos hidr0] at hfs
          simp only [Option.some.injEq, Prod.mk.injEq] at hfs
          exact ⟨hfs.1.symm, hfs.2.symm⟩
        · exact absurd hfs (by simp)
        · exact absurd hcmp (bytesCompare_replicate_zero_ne_gt hv)
      obtain ⟨rfl, rfl⟩ := hps
      have hp0 : (0 : Nat) = c.length → c.length = 0 := fun _ => hL0
      have hple : (0 : Nat) ≤ c.length := by omega
      have hbnd0 : (0 + 1) * c.nodeLen ≤ c.memory.length := by
        rw [hsz]
        exact Nat.mul_le_mul_right _ (by omega)
      have hnew := @Cache.idx_applyInsert_new c 0 false v h4 hv hple hp0 hzero
      have hzero' : ∀ k, (c.applyInsert 0 false v).length * (c.applyInsert 0 false v).nodeLen ≤ k →
          k < (c.applyInsert 0 false v).memory.length →
          byteAt (c.applyInsert 0 false v).memory k = 0 := by
        intro k hk1 hk2
        apply c.byteAt_applyInsert k h4 hv hple hp0 hzero
        rw [Cache.applyInsert_length, Cache.applyInsert_nodeLen] at hk1
        have hexp : (c.length + 1) * c.nodeLen = c.length * c.nodeLen + c.nodeLen := by ring
        have := c.nodeLen_eq
        omega
      refine ⟨⟨?_, ?_, h4, hcap, hzero', ?_, ?_⟩, ?_, ?_, ?_, ?_⟩
      · simp [hsz, Cache.nodeLen]
      · simp
        omega
      · exact c.applyInsert_idxOK hidx h4 hv (Or.inr ⟨rfl, hL0⟩) hbnd0 hfit hzero
      · intro _
        have hroot : (c.applyInsert 0 false v).rootTree
            = BTree.node 0 v BTree.leaf BTree.leaf := by
          have hnew0 := hnew
          rw [hL0] at hnew0
          have hv0 : (c.applyInsert 0 false v).val 0 = v := by
            have hh := @Cache.val_applyInsert_new c 0 false v h4 hv hbnd1
            rwa [hL0] at hh
          unfold Cache.rootTree
          rw [Cache.applyInsert_length, Cache.toTree, hv0, hnew0.1, hnew0.2]
          simp
        rw [hroot]
        constructor
        · simp [BTree.tslots, hL0]
        · simp [BTree.isBST, BTree.tvals]
      · simp
      · simp
      · simp
      · simp
    · -- the cache is nonempty: commute with the abstract insertion
      have htr := htree hL1
      have hnd : c.rootTree.tslots.Nodup := by
        have h1 : c.rootTree.tvals.Nodup := BTree.nodup_tvals_of_isBST htr.2
        have h2 : c.rootTree.tvals = c.rootTree.tslots.map c.val := c.tvals_toTree c.length 0
        rw [h2] at h1
        exact h1.of_map _
      have hpb := c.findSpot_lt hidx (c.maxCap + 1) 0 v p s (by omega) hfs
      have hnd0 : (c.toTree (c.length - 0) 0).tslots.Nodup := by
        simpa using hnd
      have hcomm := c.toTree_applyInsert hidx h4 hv hsz hlen hcap hzero (c.maxCap + 1) 0
        (by omega) hnd0 hfs
      simp only [Nat.sub_zero] at hcomm
      have hnotin : v ∉ c.rootTree.tvals := by
        have h1 := c.findSpot_not_found hidx (c.maxCap + 1) 0 v p s (by omega) ?hb hfs
        · simpa using h1
        case hb => simpa using htr.2
      have hroot' : (c.applyInsert p s v).rootTree = c.rootTree.tinsert v c.length := by
        unfold Cache.rootTree
        rw [Cache.applyInsert_length]
        exact hcomm
      have hzero' : ∀ k, (c.applyInsert p s v).length * (c.applyInsert p s v).nodeLen ≤ k →
          k < (c.applyInsert p s v).memory.length →
          byteAt (c.applyInsert p s v).memory k = 0 := by
        intro k hk1 hk2
        apply c.byteAt_applyInsert k h4 hv (by omega) (fun hh => absurd hh (by omega)) hzero
        rw [Cache.applyInsert_length, Cache.applyInsert_nodeLen] at hk1
        have hexp : (c.length + 1) * c.nodeLen = c.length * c.nodeLen + c.nodeLen := by ring
        have := c.nodeLen_eq
        omega
      have hbndp : (p + 1) * c.nodeLen ≤ c.memory.length := by
        rw [hsz]
        exact Nat.mul_le_mul_right _ (by omega)
      refine ⟨⟨?_, ?_, ?_, ?_, hzero', ?_, ?_⟩, ?_, ?_, ?_, ?_⟩
      · simp [hsz, Cache.nodeLen]
      · simp
        omega
      · simp only [Cache.applyInsert_idxLen]
        exact h4
      · simp only [Cache.applyInsert_maxCap, Cache.applyInsert_idxLen]
        exact hcap
      · exact c.applyInsert_idxOK hidx h4 hv (Or.inl hpb.2) hbndp hfit hzero
      · intro _
        rw [hroot']
        constructor
        · rw [BTree.tslots_length_tinsert hnotin, htr.1]
          simp
        · exact BTree.isBST_tinsert htr.2
      · simp
      · simp
      · simp
      · simp

/-- The exported `Insert` preserves the invariant. -/
theorem Cache.Insert_inv (c : Cache) (v : List Nat) (hInv : CacheInv c) :
    CacheInv (c.Insert v).2 := by
  unfold Cache.Insert
  by_cases h1 : c.length = c.maxCap
  · rw [if_pos h1]
    exact hInv
  · rw [if_neg h1]
    by_cases h2 : v.length ≠ c.valLen
    · rw [if_pos h2]
      exact hInv
    · rw [if_neg h2]
      push_neg at h2
      have hle := hInv.2.1
      exact (c.insertAux_inv hInv (by omega) h2).1

/-- The reading loop of `Load` preserves the invariant as long as the
announced count fits into the remaining headroom. -/
theorem Cache.loadLoop_inv :
    ∀ (k : Nat) (c : Cache) (str : List Nat), CacheInv c → c.length + k ≤ c.maxCap →
      CacheInv (c.loadLoop k str).2 := by
  intro k
  induction k with
  | zero => intro c str hInv _; exact hInv
  | succ k ih =>
    intro c str hInv hcap
    rw [Cache.loadLoop]
    by_cases hs : str.length < c.valLen
    · rw [if_pos hs]
      exact hInv
    · rw [if_neg hs]
      have htk : (str.take c.valLen).length = c.valLen := by
        rw [List.length_take]
        omega
      have hstep := c.insertAux_inv hInv (by omega) htk
      apply ih _ _ hstep.1
      omega

/-- The exported `Load` preserves the invariant. -/
theorem Cache.Load_inv (c : Cache) (str : List Nat) (hInv : CacheInv c) :
    CacheInv (c.Load str).2 := by
  unfold Cache.Load
  by_cases h1 : str.length < 4
  · rw [if_pos h1]
    exact hInv
  · rw [if_neg h1]
    simp only
    by_cases h2 : (str.drop 4).length < 4
    · rw [if_pos h2]
      exact hInv
    · rw [if_neg h2]
      by_cases h3 : getUint32 (str.take 4) ≠ c.valLen
      · rw [if_pos h3]
        exact hInv
      · rw [if_neg h3]
        by_cases h4 : getUint32 ((str.drop 4).take 4) > c.maxCap - c.length
        · rw [if_pos h4]
          exact hInv
        · rw [if_neg h4]
          have hle := hInv.2.1
          exact Cache.loadLoop_inv _ c _ hInv (by omega)

/-- A freshly constructed cache satisfies the invariant. -/
theorem newCache_inv (l n : Nat) (hn : n < 2 ^ 32) : CacheInv (newCache l n) := by
  refine ⟨?_, ?_, ?_, ?_, ?_, ?_, ?_⟩
  · simp [newCache, Cache.nodeLen]
  · simp [newCache]
  · exact idxLen_le_four hn
  · exact (idxLen_least n).1
  · intro k _ _
    simp [newCache, byteAt, getD_replicate_zero]
  · intro i hi
    simp [newCache] at hi
  · intro h
    simp [newCache] at h

/-- Every reachable cache state satisfies the structural invariant. -/
theorem reachable_cacheInv {c : Cache} (h : Reachable c) : CacheInv c := by
  induction h with
  | new l n hn => exact newCache_inv l n hn
  | insert v _ ih => exact Cache.Insert_inv _ v ih
  | load str _ ih => exact Cache.Load_inv _ str ih

/-- The structural invariant yields the claim-level facts: the tree spans
exactly the occupied prefix and is a duplicate-free strict BST. -/
theorem cacheInv_invClaim {c : Cache} (h : CacheInv c) : InvClaim c := by
  obtain ⟨hsz, hle, h4, hcap, hzero, hidx, htree⟩ := h
  refine ⟨hle, ?_⟩
  intro hL1
  obtain ⟨hlen, hbst⟩ := htree hL1
  have hvnd : c.rootTree.tvals.Nodup := BTree.nodup_tvals_of_isBST hbst
  have hmap : c.rootTree.tvals = c.rootTree.tslots.map c.val := c.tvals_toTree c.length 0
  have hsnd : c.rootTree.tslots.Nodup := by
    rw [hmap] at hvnd
    exact hvnd.of_map _
  refine ⟨?_, hbst, hvnd⟩
  have hsub : c.rootTree.tslots ⊆ List.range c.length := by
    intro t ht
    have hbt : (0 : Nat) ≤ t ∧ t < c.length :=
      c.tslots_toTree_bounds hidx c.length c.length 0 (by omega) (by omega) t ht
    rw [List.mem_range]
    exact hbt.2
  have hsp : List.Subperm c.rootTree.tslots (List.range c.length) := hsnd.subperm hsub
  apply hsp.perm_of_length_le
  rw [hlen, List.length_range]

theorem Cache.idxL_zero_of_empty (c : Cache)
    (hzero : ∀ k, c.length * c.nodeLen ≤ k → k < c.memory.length → byteAt c.memory k = 0)
    (hL0 : c.length = 0) : c.idxL 0 = 0 := by
  have h00 : c.length * c.nodeLen = 0 := by rw [hL0]; simp
  unfold Cache.idxL
  rw [readBytes_zeros, getUint32_replicate_zero]
  intro k _
  rcases Nat.lt_or_ge k c.memory.length with hk | hk
  · exact hzero k (by omega) hk
  · exact byteAt_oob hk

/-- Every slot the `recall`/`insert` descent touches lies inside the arena
(given the invariant and a nonempty arena). -/
theorem Cache.recallPath_bounds (c : Cache) (hInv : CacheInv c) (hcap1 : 1 ≤ c.maxCap) :
    ∀ fuel i v, i < c.length ∨ i = 0 →
      ∀ t ∈ recallPath c fuel i v, slotInBounds c t := by
  obtain ⟨hsz, hle, h4, hcap, hzero, hidx, _⟩ := hInv
  intro fuel
  induction fuel with
  | zero => intro i v hi t ht; simp [recallPath] at ht
  | succ f ih =>
    intro i v hi t ht
    rw [recallPath] at ht
    simp only [List.mem_cons] at ht
    rcases ht with rfl | ht
    · unfold slotInBounds
      rw [hsz]
      apply Nat.mul_le_mul_right
      omega
    · rcases Nat.eq_zero_or_pos c.length with hL0 | hL1
      · -- empty cache: the root look reads zeros and the tail is empty
        have hi0 : i = 0 := by omega
        subst hi0
        have hvz := c.val_zero_of_empty hzero hL0
        have hlz := c.idxL_zero_of_empty hzero hL0
        have hrz := c.idxR_zero_of_empty hzero hL0
        unfold Cache.look at ht
        rcases hcmp : bytesCompare (c.val 0) v with _ | _ | _ <;>
          simp only [hcmp, hlz, hrz] at ht <;> simp at ht
      · have hiL : i < c.length := by
          rcases hi with h | h
          · exact h
          · omega
        unfold Cache.look at ht
        rcases hcmp : bytesCompare (c.val i) v with _ | _ | _ <;>
          simp only [hcmp] at ht
        · -- descend right
          by_cases h0 : c.idxR i = 0
          · simp [h0] at ht
          · have hnz : ¬ ((c.idxR i : Int) = -1) := by omega
            have hnz0 : ¬ ((c.idxR i : Int) = 0) := by
              simpa using h0
            rw [if_neg hnz, if_neg hnz0] at ht
            have ht2 : ((c.idxR i : Int)).toNat = c.idxR i := by omega
            rw [ht2] at ht
            rcases (hidx i hiL).2 with hj | hj
            · exact absurd hj h0
            · exact ih (c.idxR i) v (Or.inl hj.2) t ht
        · simp at ht
        · -- descend left
          by_cases h0 : c.idxL i = 0
          · simp [h0] at ht
          · have hnz : ¬ ((c.idxL i : Int) = -1) := by omega
            have hnz0 : ¬ ((c.idxL i : Int) = 0) := by
              simpa using h0
            rw [if_neg hnz, if_neg hnz0] at ht
            have ht2 : ((c.idxL i : Int)).toNat = c.idxL i := by omega
            rw [ht2] at ht
            rcases (hidx i hiL).1 with hj | hj
            · exact absurd hj h0
            · exact ih (c.idxL i) v (Or.inl hj.2) t ht

/-- The `Save` value loop emits exactly the slot values in ascending slot
order. -/
theorem Cache.saveLoop_eq (c : Cache) :
    ∀ k i, c.saveLoop k i = ((List.range k).map (fun j => c.val (i + j))).flatten := by
  intro k
  induction k with
  | zero => intro i; simp [Cache.saveLoop]
  | succ k ih =>
    intro i
    rw [Cache.saveLoop, List.range_succ_eq_map]
    simp only [List.map_cons, List.map_map, List.flatten_cons, Nat.add_zero]
    rw [ih (i + 1)]
    congr 1
    congr 1
    apply List.map_congr_left
    intro j _
    simp [Function.comp]
    congr 1
    omega

/-! ## Claim theorems -/

/-- C1: The claim states that inserting `k ≤ capacity` distinct values of
the configured length makes each recallable and `length() = k`.  The code
violates this for the all-zero value: inserting it into a fresh
`NewCache128 1` returns no error yet leaves `length() = 0` (the descent
mistakes the zero-initialized root slot for an existing copy of the
value), and after the sequence `[0^16, 0^15·1]` into a fresh capacity-2
cache the all-zero value is no longer recallable (its phantom copy in
slot 0 is overwritten by the next insertion). -/
theorem spec_C1_insert_length_recall_bug :
    ((NewCache128 1).Insert zeros16).1 = none ∧
    ((NewCache128 1).Insert zeros16).2.Length = 0 ∧
    ((((NewCache128 2).Insert zeros16).2.Insert val16a).2).Recall zeros16
      = (false, none) := by
  decide

/-- C2: The claim states a fresh cache has `length() = 0`, `size() =
capacity × nodeSize`, and `recall(v) = false` for every `v` of the
configured length.  The first two parts hold, but `recall` of the
all-zero value on a fresh cache returns `true` although nothing was ever
inserted: the zero-initialized value field of slot 0 compares equal to
it. -/
theorem spec_C2_fresh_recall_zero_bug :
    (NewCache128 1).Length = 0 ∧
    (NewCache128 1).Size
      = 1 * ((NewCache128 1).valLen + 2 * (NewCache128 1).idxLen) ∧
    (NewCache128 1).Recall zeros16 = (true, none) := by
  decide

/-- C3: The claim states that `save` from a populated cache A and `load`
into an empty identically-configured cache B makes every value ever
inserted into A recallable in B, with `B.length() = A.length()`.  The
code violates the recall part for the all-zero value: below, the all-zero
value is inserted into A without error, yet after the round trip
`B.recall(0^16)` is `false` (the value was silently dropped by A's
insert, so `save` never emits it).  The length part holds. -/
theorem spec_C3_roundtrip_zero_bug :
    ((NewCache128 2).Insert zeros16).1 = none ∧
    (((NewCache128 2).Insert zeros16).2.Insert val16a).1 = none ∧
    (let a := (((NewCache128 2).Insert zeros16).2.Insert val16a).2
     let b := ((NewCache128 2).Load a.Save).2
     ((NewCache128 2).Load a.Save).1 = none ∧
     b.Recall val16a = (true, none) ∧
     b.Length = a.Length ∧
     b.Recall zeros16 = (false, none)) := by
  decide

/-- C4 counterexample: the claim says `insert` with a wrong-length value
always fails with a length-mismatch error, for every cache state.  On a
full cache (here capacity 0) the capacity check runs first, so the error
is capacity-exhausted instead. -/
theorem spec_C4_counterexample :
    [0, 0].length ≠ (newCache 8 0).valLen ∧
    ((newCache 8 0).Insert [0, 0]).1 = some CacheError.capacityExhausted ∧
    ((newCache 8 0).Insert [0, 0]).1 ≠ some CacheError.lengthMismatch := by
  decide

/-- C4 (amended): `recall` with a wrong-length value always fails with a
length-mismatch error; `insert` with a wrong-length value fails without
mutating the cache — with a length-mismatch error when the cache is not
full, and with a capacity-exhausted error when it is full (the capacity
check precedes the length check).  Neither call mutates the state: the
returned cache is the argument itself, and `Recall` reads only. -/
theorem spec_C4_wrong_length (c : Cache) (v : List Nat) (h : v.length ≠ c.valLen) :
    c.Recall v = (false, some CacheError.lengthMismatch) ∧
    (c.length ≠ c.maxCap → c.Insert v = (some CacheError.lengthMismatch, c)) ∧
    (c.length = c.maxCap → c.Insert v = (some CacheError.capacityExhausted, c)) := by
  refine ⟨?_, ?_, ?_⟩
  · unfold Cache.Recall
    rw [if_pos h]
  · intro h2
    unfold Cache.Insert
    rw [if_neg h2, if_pos h]
  · intro h2
    unfold Cache.Insert
    rw [if_pos h2]

theorem spec_C4_witness :
    [0].length ≠ (NewCache128 2).valLen ∧
    ((NewCache128 2).Recall [0] = (false, some CacheError.lengthMismatch) ∧
     ((NewCache128 2).length ≠ (NewCache128 2).maxCap →
       (NewCache128 2).Insert [0] = (some CacheError.lengthMismatch, NewCache128 2)) ∧
     ((NewCache128 2).length = (NewCache128 2).maxCap →
       (NewCache128 2).Insert [0] = (some CacheError.capacityExhausted, NewCache128 2))) :=
  ⟨by decide, spec_C4_wrong_length _ [0] (by decide)⟩

/-- C5 counterexample: the claim says `indexWidth = 0` holds only when
`capacity = 0`, but construction with capacity 1 also yields index width
0 (one slot needs zero bits of addressing, since `2^0 ≥ 1`). -/
theorem spec_C5_counterexample :
    (newCache 128 1).idxLen = 0 ∧ (1 : Nat) ≠ 0 := by
  decide

/-- C5 (amended): construction computes `indexWidth` as the minimal
whole-byte width `w` whose `8w` bits can represent all slot numbers in
`[0, capacity)`, i.e. the least `w` with `capacity ≤ 2^(8w)`; and
`indexWidth = 0` holds exactly when `capacity ≤ 1` (not only when
`capacity = 0`). -/
theorem spec_C5_idxWidth_formula (l n : Nat) :
    n ≤ 2 ^ (8 * (newCache l n).idxLen) ∧
    (∀ w, w < (newCache l n).idxLen → 2 ^ (8 * w) < n) ∧
    ((newCache l n).idxLen = 0 ↔ n ≤ 1) := by
  have hii := idxLen_least n
  have h1 : (newCache l n).idxLen = log n 8 / 8 := rfl
  rw [h1]
  refine ⟨hii.1, hii.2, ?_⟩
  constructor
  · intro h0
    have := hii.1
    rw [h0] at this
    simpa using this
  · intro hn1
    by_contra h0
    have := hii.2 0 (by omega)
    simp at this
    omega

theorem spec_C5_witness :
    2 ≤ 2 ^ (8 * (newCache 128 2).idxLen) ∧
    2 ^ (8 * 0) < 2 ∧
    ¬ ((newCache 128 2).idxLen = 0) := by
  refine ⟨(spec_C5_idxWidth_formula 128 2).1, ?_, ?_⟩
  · exact (spec_C5_idxWidth_formula 128 2).2.1 0 (by decide)
  · intro h
    have := (spec_C5_idxWidth_formula 128 2).2.2.mp h
    omega

/-- C6: `Save` writes exactly the 4-byte big-endian value length, the
4-byte big-endian count, then the `valueLength`-byte value field of each
occupied slot in slot order `0, 1, …, length-1` — nothing else: the
output is the plain concatenation (no padding, no child-index fields),
and its total size is `8 + length × valueLength` bytes. -/
theorem spec_C6_save_format (c : Cache) :
    c.Save = u32be c.valLen ++ u32be c.length
      ++ ((List.range c.length).map c.val).flatten ∧
    c.Save.length = 8 + c.length * c.valLen ∧
    (∀ i, i < c.length → (c.val i).length = c.valLen) := by
  have h1 : c.Save = u32be c.valLen ++ u32be c.length
      ++ ((List.range c.length).map c.val).flatten := by
    unfold Cache.Save
    rw [c.saveLoop_eq c.length 0]
    congr 2
    apply List.map_congr_left
    intro j _
    simp
  have hflat : ∀ n, (((List.range n).map c.val).flatten).length = n * c.valLen := by
    intro n
    induction n with
    | zero => simp
    | succ n ihn =>
      rw [List.range_succ]
      simp [ihn]
      ring
  refine ⟨h1, ?_, fun i _ => c.val_length i⟩
  rw [h1]
  simp [u32be, hflat]
  omega

theorem spec_C6_witness :
    0 < ((NewCache128 1).Insert val16a).2.length ∧
    (((NewCache128 1).Insert val16a).2.val 0).length
      = ((NewCache128 1).Insert val16a).2.valLen :=
  ⟨by decide, (spec_C6_save_format _).2.2 0 (by decide)⟩

/-- C7: inserting into a cache whose `length()` equals its capacity fails
with the capacity-exhausted error and returns the state unchanged (the
check precedes any write, so arena and length are untouched). -/
theorem spec_C7_insert_full (c : Cache) (v : List Nat) (h : c.length = c.maxCap) :
    c.Insert v = (some CacheError.capacityExhausted, c) := by
  unfold Cache.Insert
  rw [if_pos h]

theorem spec_C7_witness :
    ((NewCache128 1).Insert val16a).2.length = ((NewCache128 1).Insert val16a).2.maxCap ∧
    ((NewCache128 1).Insert val16a).2.Insert val16b
      = (some CacheError.capacityExhausted, ((NewCache128 1).Insert val16a).2) :=
  ⟨by decide, spec_C7_insert_full _ val16b (by decide)⟩

/-- C8: every reachable cache state satisfies `length ≤ capacity`, and
when nonempty the tree read off the arena spans exactly the contiguous
slot prefix `[0, length)` (`tslots` is a permutation of `range length`),
is a strict binary search tree under byte-lexicographic comparison, and
holds no duplicate value; the constructor and every mutating operation
(`Insert`, `Load`) preserve this, while `Recall`, `Save` and `Last` do
not modify the state at all (they are read-only functions of the cache in
this embedding). -/
theorem spec_C8_reachable_invariant (c : Cache) (h : Reachable c) : InvClaim c :=
  cacheInv_invClaim (reachable_cacheInv h)

theorem spec_C8_witness :
    Reachable ((NewCache128 2).Insert val16a).2 ∧
    InvClaim ((NewCache128 2).Insert val16a).2 :=
  have hr : Reachable ((NewCache128 2).Insert val16a).2 :=
    Reachable.insert val16a (Reachable.new 128 2 (by norm_num))
  ⟨hr, spec_C8_reachable_invariant _ hr⟩

/-- C9: on a capacity-0 cache the recall descent touches slot 0, whose
value field lies outside the empty arena (`slotInBounds` fails — the
point where the Go code panics with an out-of-range slice index instead
of returning `false` or an error); on any invariant-satisfying cache with
capacity ≥ 1, every slot the descent touches lies inside the arena, and
when `insert` proceeds (`length < capacity`) its write target, slot
`length`, is inside the arena as well (`insert` descends through the same
`look` steps, so `recallPath` covers its reads too). -/
theorem spec_C9_recall_bounds :
    (∀ v : List Nat, v.length = (NewCache128 0).valLen →
      0 ∈ recallPath (NewCache128 0) ((NewCache128 0).maxCap + 1) 0 v ∧
      ¬ slotInBounds (NewCache128 0) 0) ∧
    (∀ (c : Cache) (v : List Nat), CacheInv c → 1 ≤ c.maxCap →
      (∀ t ∈ recallPath c (c.maxCap + 1) 0 v, slotInBounds c t) ∧
      (c.length < c.maxCap → slotInBounds c c.length)) := by
  constructor
  · intro v _
    constructor
    · show 0 ∈ recallPath (NewCache128 0) (0 + 1) 0 v
      rw [recallPath]
      exact List.mem_cons_self _ _
    · decide
  · intro c v hInv hc1
    constructor
    · exact c.recallPath_bounds hInv hc1 _ 0 v (Or.inr rfl)
    · intro hlt
      unfold slotInBounds
      rw [hInv.1]
      exact Nat.mul_le_mul_right _ (by omega)

theorem spec_C9_witness :
    (zeros16.length = (NewCache128 0).valLen ∧
      0 ∈ recallPath (NewCache128 0) ((NewCache128 0).maxCap + 1) 0 zeros16 ∧
      ¬ slotInBounds (NewCache128 0) 0) ∧
    (CacheInv (newCache 8 2) ∧ 1 ≤ (newCache 8 2).maxCap ∧
      ((∀ t ∈ recallPath (newCache 8 2) ((newCache 8 2).maxCap + 1) 0 [5],
          slotInBounds (newCache 8 2) t) ∧
       ((newCache 8 2).length < (newCache 8 2).maxCap →
          slotInBounds (newCache 8 2) (newCache 8 2).length))) :=
  ⟨⟨by decide, spec_C9_recall_bounds.1 zeros16 (by decide)⟩,
   ⟨newCache_inv 8 2 (by norm_num), by decide,
    spec_C9_recall_bounds.2 (newCache 8 2) [5] (newCache_inv 8 2 (by norm_num))
      (by decide)⟩⟩

/-- C10: for a destination width `0 ≤ w ≤ 4` and any 32-bit value `v`,
`putUint32` then `getUint32` on the same buffer recovers `v mod 2^(8w)`;
consequently any child index below `2^(8·indexWidth)` written into a
node's index field by `setIdxL`/`setIdxR` is read back exactly by
`idxL`/`idxR`. -/
theorem spec_C10_uint_roundtrip :
    (∀ w v2 : Nat, w ≤ 4 → v2 < 2 ^ 32 →
      getUint32 (putUint32 w v2) = v2 % 2 ^ (8 * w)) ∧
    (∀ (c : Cache) (i x : Nat), c.idxLen ≤ 4 →
      (i + 1) * c.nodeLen ≤ c.memory.length → x < 2 ^ (8 * c.idxLen) →
      (c.setIdxL i x).idxL i = x ∧ (c.setIdxR i x).idxR i = x) := by
  constructor
  · intro w v2 hw _
    exact getUint32_putUint32 hw v2
  · intro c i x h4 hb hx
    constructor
    · rw [c.idxL_setIdxL_self h4 hb, Nat.mod_eq_of_lt hx]
    · rw [c.idxR_setIdxR_self h4 hb, Nat.mod_eq_of_lt hx]

theorem spec_C10_witness :
    ((2 : Nat) ≤ 4 ∧ (256 : Nat) < 2 ^ 32 ∧
      getUint32 (putUint32 2 256) = 256 % 2 ^ (8 * 2)) ∧
    ((newCache 128 2).idxLen ≤ 4 ∧
      (0 + 1) * (newCache 128 2).nodeLen ≤ (newCache 128 2).memory.length ∧
      1 < 2 ^ (8 * (newCache 128 2).idxLen) ∧
      ((newCache 128 2).setIdxL 0 1).idxL 0 = 1 ∧
      ((newCache 128 2).setIdxR 0 1).idxR 0 = 1) :=
  ⟨⟨by decide, by decide,
    spec_C10_uint_roundtrip.1 2 256 (by decide) (by decide)⟩,
   ⟨by decide, by decide, by decide,
    (spec_C10_uint_roundtrip.2 (newCache 128 2) 0 1 (by decide) (by decide)
      (by decide)).1,
    (spec_C10_uint_roundtrip.2 (newCache 128 2) 0 1 (by decide) (by decide)
      (by decide)).2⟩⟩

end Dejavu
